import Mathlib

/-!
Verification of the meeting-recorder frontend core: the session processing
state machine, speaker-labeling logic, transcript polling, the sidecar
request vocabulary, the labeling wait loop, and the markdown renderer's
HTML escaping.  All definitions are shallow embeddings of the TypeScript /
Svelte sources under `src/`.
-/

/-- Embeds `ProcessingState` from `src/lib/types/index.ts`:
`'idle' | 'recording' | 'diarizing' | 'labeling' | 'summarizing' | 'complete'`.
The union type has exactly these six alternatives. -/
inductive ProcessingState
  | idle
  | recording
  | diarizing
  | labeling
  | summarizing
  | complete
deriving DecidableEq, Repr

/-- Embeds `TranscriptSegment` from `src/lib/types/index.ts`:
`{text, start, end, speaker?}`.  The optional `speaker` is an `Option`;
the `end` field is renamed `endTime` because `end` is reserved in Lean. -/
structure TranscriptSegment where
  text : String
  start : Int
  endTime : Int
  speaker : Option String
deriving DecidableEq, Repr

/-- Embeds `DetectedSpeaker` from `src/lib/types/index.ts`:
`{label, suggestedName: string | null, confidence, excerpts}`. -/
structure DetectedSpeaker where
  label : String
  suggestedName : Option String
  confidence : Int
  excerpts : List String
deriving DecidableEq, Repr

/-- Embeds the shape of the diarization response used by
`handleStopRecording` in `src/lib/components/RecordingPage.svelte`: the
`segments` and `speakers` fields are each either absent/non-array
(`none`) or a decoded array (`some`). -/
structure DiarizeResult where
  segments : Option (List TranscriptSegment)
  speakers : Option (List DetectedSpeaker)
deriving DecidableEq, Repr

/-- Embeds the mutable application state from
`src/lib/stores/app.svelte.ts` plus the local component state of
`RecordingPage.svelte` (`errorMessage`, `isStarting`).  Fields not
touched by any verified claim (`currentPage`, `currentMeeting` title and
timestamp bookkeeping, `settings`) are omitted. -/
structure AppState where
  sidecarConnected : Bool
  isRecording : Bool
  recordingDuration : Nat
  processingState : ProcessingState
  transcript : List TranscriptSegment
  detectedSpeakers : List DetectedSpeaker
  showLabelingModal : Bool
  errorMessage : String
  isStarting : Bool
deriving DecidableEq, Repr

/-- Initial store value from `src/lib/stores/app.svelte.ts`. -/
def initAppState : AppState :=
  { sidecarConnected := false
    isRecording := false
    recordingDuration := 0
    processingState := .idle
    transcript := []
    detectedSpeakers := []
    showLabelingModal := false
    errorMessage := ""
    isStarting := false }

/-- JS `String.prototype.trim()`: strips leading and trailing whitespace.
Defined character-wise so that it evaluates by kernel reduction. -/
def jsTrim (s : String) : String :=
  String.mk (((s.toList.dropWhile Char.isWhitespace).reverse.dropWhile Char.isWhitespace).reverse)

/-- Lookup in a JS object with unique keys (`speakerNames[label]`),
modelled as first-match lookup in an association list. -/
def lookupStr (m : List (String × String)) (k : String) : Option String :=
  (m.find? (fun p => p.1 == k)).map (fun p => p.2)

/-- Lookup in a JS object built by repeated assignment in a loop
(`labelToGeneric[label] = ...` in `handleSkip`): a later assignment for
the same key overwrites an earlier one, so the last matching entry wins. -/
def lookupLast (m : List (String × String)) (k : String) : Option String :=
  (m.reverse.find? (fun p => p.1 == k)).map (fun p => p.2)

/-- JS `Set.add` semantics used by `handleStopRecording` when collecting
speaker labels: insertion order is preserved and duplicates are dropped. -/
def setAdd (acc : List String) (x : String) : List String :=
  if x ∈ acc then acc else acc ++ [x]

/-- The label-collection loop of `handleStopRecording`
(`RecordingPage.svelte`): `if (seg.speaker) speakerLabels.add(seg.speaker)`;
an absent or empty (falsy) speaker is skipped. -/
def collectSpeakerLabels (t : List TranscriptSegment) : List String :=
  t.foldl (fun acc seg =>
    match seg.speaker with
    | some l => if l.isEmpty then acc else setAdd acc l
    | none => acc) []

/-- The derived `DetectedSpeaker` list built by `handleStopRecording`
when the diarization response has no `speakers` array: one entry per
distinct transcript label, `suggestedName: null`, `confidence: 0`,
excerpts = texts of the first three segments with that label. -/
def buildDetectedSpeakers (t : List TranscriptSegment) : List DetectedSpeaker :=
  (collectSpeakerLabels t).map (fun l =>
    { label := l
      suggestedName := none
      confidence := 0
      excerpts := ((t.filter (fun seg => seg.speaker == some l)).take 3).map (fun seg => seg.text) })

/-- The per-segment speaker update of `handleConfirm` in the labeling
modal (`src/unnamed/part_002`):
`seg.speaker && speakerNames[seg.speaker] ? speakerNames[seg.speaker].trim() : seg.speaker`.
JS truthiness: an absent or empty string is falsy. -/
def confirmSpeaker (names : List (String × String)) (sp : Option String) : Option String :=
  match sp with
  | none => none
  | some l =>
    if l.isEmpty then some l
    else
      match lookupStr names l with
      | none => some l
      | some n => if n.isEmpty then some l else some (jsTrim n)

/-- The per-segment speaker update of `handleSkip`:
`seg.speaker && labelToGeneric[seg.speaker] ? labelToGeneric[seg.speaker] : seg.speaker`. -/
def skipSpeaker (gen : List (String × String)) (sp : Option String) : Option String :=
  match sp with
  | none => none
  | some l =>
    if l.isEmpty then some l
    else
      match lookupLast gen l with
      | none => some l
      | some n => if n.isEmpty then some l else some n

/-- The indexed loop of `handleSkip` building `labelToGeneric`: the
detected speaker at overall index `i` maps to `"Speaker " + (i+1)`. -/
def labelToGenericFrom (i : Nat) : List DetectedSpeaker → List (String × String)
  | [] => []
  | sp :: rest => (sp.label, "Speaker " ++ toString (i + 1)) :: labelToGenericFrom (i + 1) rest

/-- The `labelToGeneric` object built by `handleSkip`: detected speaker at
index `i` maps to `"Speaker " + (i+1)`; on a duplicated label the later
assignment overwrites, which `lookupLast` reproduces. -/
def labelToGeneric (speakers : List DetectedSpeaker) : List (String × String) :=
  labelToGenericFrom 0 speakers

/-- The `allLabeled` derived value of the labeling modal:
`detectedSpeakers.length > 0 && detectedSpeakers.every(s => (speakerNames[s.label] ?? '').trim().length > 0)`. -/
def allLabeled (names : List (String × String)) (s : AppState) : Bool :=
  !s.detectedSpeakers.isEmpty &&
    s.detectedSpeakers.all (fun sp => !(jsTrim ((lookupStr names sp.label).getD "")).isEmpty)

/-- `handleConfirm` from the labeling modal: returns unchanged unless
`allLabeled`; otherwise rewrites the transcript speakers from the entered
names, closes the modal and moves to `summarizing`. -/
def handleConfirm (names : List (String × String)) (s : AppState) : AppState :=
  if allLabeled names s then
    { s with
        transcript := s.transcript.map (fun seg => { seg with speaker := confirmSpeaker names seg.speaker })
        showLabelingModal := false
        processingState := .summarizing }
  else s

/-- `handleSkip` from the labeling modal: rewrites transcript speakers to
generic ordinal names via `labelToGeneric`, closes the modal and moves to
`summarizing`. -/
def handleSkip (s : AppState) : AppState :=
  { s with
      transcript := s.transcript.map (fun seg => { seg with speaker := skipSpeaker (labelToGeneric s.detectedSpeakers) seg.speaker })
      showLabelingModal := false
      processingState := .summarizing }

/-- One iteration of the `pollTranscript` loop body in
`RecordingPage.svelte`: the transcript is replaced by the response's
segment list only when that list is strictly longer; a missing/non-array
`segments` field or a thrown request error (`none`) leaves it unchanged. -/
def pollStep (transcript : List TranscriptSegment) (response : Option (List TranscriptSegment)) : List TranscriptSegment :=
  match response with
  | some segs => if segs.length > transcript.length then segs else transcript
  | none => transcript

/-- The `canStartRecording` derived value of `RecordingPage.svelte`:
`!appState.isRecording && appState.processingState === 'idle' && !isStarting`.
The Start Recording button is rendered only when this is true. -/
def canStartRecording (s : AppState) : Bool :=
  !s.isRecording && decide (s.processingState = ProcessingState.idle) && !s.isStarting

/-- Net effect of a successful `handleStartRecording`: error cleared,
sidecar connected, recording flags set, transcript reset, state
`recording`; `isStarting` is set in a `try`/`finally` and ends false. -/
def startApply (s : AppState) : AppState :=
  { s with
      errorMessage := ""
      sidecarConnected := true
      isRecording := true
      recordingDuration := 0
      transcript := []
      processingState := .recording
      isStarting := false }

/-- Net effect of the `catch` branch of `handleStartRecording`. -/
def startFailApply (msg : String) (s : AppState) : AppState :=
  { s with
      errorMessage := msg
      isRecording := false
      processingState := .idle
      sidecarConnected := false
      isStarting := false }

/-- Effect of `handleStopRecording` up to entering diarization: error
cleared, timer stopped, `isRecording` false, state `diarizing`. -/
def stopApply (s : AppState) : AppState :=
  { s with
      errorMessage := ""
      isRecording := false
      processingState := .diarizing }

/-- Effect when the `stop_recording` request itself throws: the `catch`
of `handleStopRecording` records the message and resets to `idle`. -/
def stopFailApply (msg : String) (s : AppState) : AppState :=
  { s with
      isRecording := false
      errorMessage := msg
      processingState := .idle }

/-- The `catch` of `handleStopRecording` for a failure in the
diarize/summarize stages: records the message and resets to `idle`.
There is no dedicated error state. -/
def pipelineFailApply (msg : String) (s : AppState) : AppState :=
  { s with
      errorMessage := msg
      processingState := .idle }

/-- Effect of receiving the diarization response in
`handleStopRecording`: the transcript is replaced when the response has a
`segments` array; `detectedSpeakers` comes from the response's `speakers`
array when present, otherwise it is derived from the transcript; then
state moves to `labeling` and the modal opens. -/
def diarizeApply (r : DiarizeResult) (s : AppState) : AppState :=
  let t := match r.segments with
    | some segs => segs
    | none => s.transcript
  let ds := match r.speakers with
    | some sp => sp
    | none => buildDetectedSpeakers t
  { s with
      transcript := t
      detectedSpeakers := ds
      processingState := .labeling
      showLabelingModal := true }

/-- Atomic events of the session lifecycle, at the granularity of the
code's state assignments between `await` points.  Fallible sidecar
round-trips carry `none`/`.ok` for success and the error message
otherwise. -/
inductive Event
  | startEv (err : Option String)
  | stopEv (err : Option String)
  | pollEv (response : Option (List TranscriptSegment))
  | diarizeEv (result : Except String DiarizeResult)
  | confirmEv (names : List (String × String))
  | skipEv
  | summarizeEv (err : Option String)
  | dismissEv

/-- One step of the session state machine of `RecordingPage.svelte` and
the labeling modal.  Guards reflect where each event can occur: the Start
button is rendered only when `canStartRecording`, the Stop button only
while `isRecording`, the diarize/summarize continuations run in their
pipeline stage, and the modal buttons exist only while
`showLabelingModal`. -/
def step (s : AppState) (e : Event) : AppState :=
  match e with
  | .startEv err =>
    if canStartRecording s then
      match err with
      | none => startApply s
      | some msg => startFailApply msg s
    else s
  | .stopEv err =>
    if s.isRecording then
      match err with
      | none => stopApply s
      | some msg => stopFailApply msg s
    else s
  | .pollEv r =>
    if s.isRecording then { s with transcript := pollStep s.transcript r } else s
  | .diarizeEv result =>
    if s.processingState = ProcessingState.diarizing then
      match result with
      | .ok r => diarizeApply r s
      | .error msg => pipelineFailApply msg s
    else s
  | .confirmEv names =>
    if s.showLabelingModal then handleConfirm names s else s
  | .skipEv =>
    if s.showLabelingModal then handleSkip s else s
  | .summarizeEv err =>
    if s.processingState = ProcessingState.summarizing then
      match err with
      | none => { s with processingState := .complete }
      | some msg => pipelineFailApply msg s
    else s
  | .dismissEv =>
    if s.processingState = ProcessingState.complete then
      { s with processingState := .idle }
    else s

/-- States reachable from the initial store value. -/
inductive Reach : AppState → Prop
  | init : Reach initAppState
  | next {s : AppState} (e : Event) : Reach s → Reach (step s e)

/-- Stage rank along the pipeline order
`idle → recording → diarizing → labeling → summarizing → complete`. -/
def stageRank : ProcessingState → Nat
  | .idle => 0
  | .recording => 1
  | .diarizing => 2
  | .labeling => 3
  | .summarizing => 4
  | .complete => 5

/-- A sidecar request as seen by `sendToSidecar` in
`src/lib/services/sidecar.ts`; only the discriminating `type` field is
modelled, payload fields are carried by the constructing functions below. -/
structure SidecarRequest where
  type : String
deriving DecidableEq, Repr

/-- Request built by `handleStartRecording`:
`{ type: 'start_recording', device }`. -/
def startRecordingMsg (device : String) : SidecarRequest := { type := "start_recording" }

/-- Request built by `pollTranscript`: `{ type: 'get_transcript' }`. -/
def getTranscriptMsg : SidecarRequest := { type := "get_transcript" }

/-- Request built by `handleStopRecording`: `{ type: 'stop_recording' }`. -/
def stopRecordingMsg : SidecarRequest := { type := "stop_recording" }

/-- Request built by `identifySpeakers` in `sidecar.ts`. -/
def identifySpeakersMsg : SidecarRequest := { type := "identify_speakers" }

/-- Request built by `diarize` in `sidecar.ts`. -/
def diarizeMsg (audioPath : String) (numSpeakers : Option Nat) : SidecarRequest := { type := "diarize" }

/-- Request built by `summarize` in `sidecar.ts`. -/
def summarizeMsg (transcript provider model apiKey : String) : SidecarRequest := { type := "summarize" }

/-- Request built by `saveSummary` in `sidecar.ts`. -/
def saveSummaryMsg : SidecarRequest := { type := "save_summary" }

/-- Request built by `getAllSpeakers` in `sidecar.ts`. -/
def getAllSpeakersMsg : SidecarRequest := { type := "get_all_speakers" }

/-- Request built by `getSummariesForSpeaker` in `sidecar.ts`. -/
def getSummariesForSpeakerMsg (speakerName : String) : SidecarRequest := { type := "get_summaries_for_speaker" }

/-- Request built by `getSummaryDetail` in `sidecar.ts`. -/
def getSummaryDetailMsg (summaryId : Nat) : SidecarRequest := { type := "get_summary_detail" }

/-- Request built by `searchSummaries` in `sidecar.ts`. -/
def searchSummariesMsg (query : String) : SidecarRequest := { type := "search_summaries" }

/-- Request built by `saveSettings` in `sidecar.ts`. -/
def saveSettingsMsg : SidecarRequest := { type := "save_settings" }

/-- Request built by `loadSettings` in `sidecar.ts`. -/
def loadSettingsMsg : SidecarRequest := { type := "load_settings" }

/-- The `type` strings of every `sendToSidecar` call site in the
frontend sources (`sidecar.ts` wrappers plus the three inline calls in
`RecordingPage.svelte`).  Calls that are commented out in
`SummariesPage`/`SettingsPage` do not send and are not listed. -/
def sentRequestTypes : List String :=
  [(startRecordingMsg "default").type
   , getTranscriptMsg.type
   , stopRecordingMsg.type
   , identifySpeakersMsg.type
   , (diarizeMsg "" none).type
   , (summarizeMsg "" "" "" "").type
   , saveSummaryMsg.type
   , getAllSpeakersMsg.type
   , (getSummariesForSpeakerMsg "").type
   , (getSummaryDetailMsg 0).type
   , (searchSummariesMsg "").type
   , saveSettingsMsg.type
   , loadSettingsMsg.type]

/-- Modelled from the spec: the closed set of request `type` values that
§6/§4.3 of the specification declares for the sidecar wire protocol. -/
def specClosedRequestTypes : List String :=
  ["transcribe_chunk", "diarize", "identify_speakers", "summarize",
   "save_summary", "get_all_speakers", "get_summaries_for_speaker",
   "get_summary_detail", "search_summaries", "save_settings", "load_settings"]

/-- Poll period of `waitForLabeling` in `RecordingPage.svelte`
(`setInterval(..., 200)`). -/
def labelingPollIntervalMs : Nat := 200

/-- The `waitForLabeling` interval callback, run once per 200 ms tick:
given the value of `appState.showLabelingModal` observed at each tick, it
resolves at the first tick where the flag is false and otherwise keeps
polling; `none` means the given schedule never resolves it. -/
def waitForLabelingTicks : List Bool → Option Nat
  | [] => none
  | modalOpen :: rest =>
    if modalOpen then (waitForLabelingTicks rest).map (· + 1) else some 0

/-- Number of times the interval callback wakes on a schedule: every tick
up to and including the resolving one. -/
def wakeCount (flags : List Bool) : Nat :=
  match waitForLabelingTicks flags with
  | some k => k + 1
  | none => flags.length

/-- Shorthand: the character list of a string literal. -/
def str (s : String) : List Char := s.toList

/-- The backtick character, by code point. -/
def backquote : Char := Char.ofNat 96

/-- JS `String.replace(/c/g, r)` for a single-character pattern: every
occurrence of `t` is replaced by `r`, and replacement text is not
re-scanned. -/
def replaceAllChar (t : Char) (r : List Char) : List Char → List Char
  | [] => []
  | c :: cs => (if c = t then r else [c]) ++ replaceAllChar t r cs

/-- The escape prelude of `renderMarkdown` (`src/unnamed/part_001`):
`md.replace(/&/g,'&amp;').replace(/</g,'&lt;').replace(/>/g,'&gt;')`,
applied in that order. -/
def escapeHtml (s : List Char) : List Char :=
  replaceAllChar '>' (str "&gt;")
    (replaceAllChar '<' (str "&lt;")
      (replaceAllChar '&' (str "&amp;") s))

/-- Character-level view of the escape: what one input character becomes. -/
def escapeChar (c : Char) : List Char :=
  if c = '&' then str "&amp;"
  else if c = '<' then str "&lt;"
  else if c = '>' then str "&gt;"
  else [c]

/-- JS `escaped.split('\n')`. -/
def splitOnNl : List Char → List (List Char)
  | [] => [[]]
  | c :: rest =>
    if c = '\n' then [] :: splitOnNl rest
    else
      match splitOnNl rest with
      | [] => [[c]]
      | l :: ls => (c :: l) :: ls

/-- JS `htmlLines.join('\n')`. -/
def joinNl : List (List Char) → List Char
  | [] => []
  | [l] => l
  | l :: ls => l ++ '\n' :: joinNl ls

/-- Anchored literal prefix test, embedding the `^...` regexes of
`renderMarkdown` (`/^### /`, `/^## /`, `/^# /`, `/^- /`). -/
def hasPre (pre l : List Char) : Bool := decide (l.take pre.length = pre)

/-- The ordered-list-item regex `/^(\d+)\. /` of `renderMarkdown`: on a
match, returns the length of the whole match (digits plus `. `). -/
def orderedMatchLen (l : List Char) : Option Nat :=
  let d := l.takeWhile Char.isDigit
  if d.isEmpty then none
  else if hasPre (str ". ") (l.drop d.length) then some (d.length + 2)
  else none

/-- The blank-line test `line.trim() === ''`. -/
def isBlankLine (l : List Char) : Bool := l.all Char.isWhitespace

/-- The global replace `text.replace(/`([^`]+)`/g, '<code>$1</code>')`:
scan left to right; at a backtick, a nonempty backtick-free run closed by
another backtick is wrapped in `<code>` tags and scanning resumes after
the closing backtick; otherwise scanning advances one character, as the
regex engine does.  The `fuel` argument only bounds the recursion (one
unit per character consumed); `codeRepl` below instantiates it with the
input length, which every recursive call respects. -/
def codeReplF : Nat → List Char → List Char
  | _, [] => []
  | 0, s => s
  | fuel + 1, c :: rest =>
    if c = backquote then
      let mid := rest.takeWhile (fun x => x != backquote)
      match rest.dropWhile (fun x => x != backquote) with
      | _ :: tail =>
        if mid.isEmpty then c :: codeReplF fuel rest
        else str "<code>" ++ mid ++ str "</code>" ++ codeReplF fuel tail
      | [] => c :: codeReplF fuel rest
    else c :: codeReplF fuel rest

/-- Inline-code replacement at full fuel. -/
def codeRepl (s : List Char) : List Char := codeReplF s.length s

/-- The global replace
`text.replace(/\*\*([^*]+)\*\*/g, '<strong>$1</strong>')`: at `**`, a
nonempty star-free run closed by `**` is wrapped in `<strong>` tags;
otherwise the scan advances one character, as the regex engine does. -/
def strongReplF : Nat → List Char → List Char
  | _, [] => []
  | 0, s => s
  | fuel + 1, c :: rest =>
    if c = '*' ∧ rest.head? = some '*' then
      let mid := rest.tail.takeWhile (fun x => x != '*')
      match rest.tail.dropWhile (fun x => x != '*') with
      | _ :: y :: tail =>
        if y = '*' then
          if mid.isEmpty then c :: strongReplF fuel rest
          else str "<strong>" ++ mid ++ str "</strong>" ++ strongReplF fuel tail
        else c :: strongReplF fuel rest
      | _ => c :: strongReplF fuel rest
    else c :: strongReplF fuel rest

/-- Bold replacement at full fuel. -/
def strongRepl (s : List Char) : List Char := strongReplF s.length s

/-- The global replace `text.replace(/\*([^*]+)\*/g, '<em>$1</em>')`. -/
def emReplF : Nat → List Char → List Char
  | _, [] => []
  | 0, s => s
  | fuel + 1, c :: rest =>
    if c = '*' then
      let mid := rest.takeWhile (fun x => x != '*')
      match rest.dropWhile (fun x => x != '*') with
      | _ :: tail =>
        if mid.isEmpty then c :: emReplF fuel rest
        else str "<em>" ++ mid ++ str "</em>" ++ emReplF fuel tail
      | [] => c :: emReplF fuel rest
    else c :: emReplF fuel rest

/-- Italic replacement at full fuel. -/
def emRepl (s : List Char) : List Char := emReplF s.length s

/-- `applyInlineFormatting` from `src/unnamed/part_001`: inline code,
then bold, then italics, in the source's order. -/
def applyInlineFormatting (text : List Char) : List Char :=
  emRepl (strongRepl (codeRepl text))

/-- One iteration of the line loop of `renderMarkdown`: emits the lines
pushed for this input line (list closers first, exactly as the source
pushes them) and returns the updated `inList`/`inOrderedList` flags. -/
def renderOneLine (line : List Char) (inL inO : Bool) : List (List Char) × Bool × Bool :=
  let ulClose : List (List Char) := if inL && !(hasPre (str "- ") line) then [str "</ul>"] else []
  let inL1 := inL && hasPre (str "- ") line
  let olClose : List (List Char) := if inO && (orderedMatchLen line).isNone then [str "</ol>"] else []
  let inO1 := inO && (orderedMatchLen line).isSome
  let closers := ulClose ++ olClose
  if hasPre (str "### ") line then
    (closers ++ [str "<h4>" ++ applyInlineFormatting (line.drop 4) ++ str "</h4>"], inL1, inO1)
  else if hasPre (str "## ") line then
    (closers ++ [str "<h3>" ++ applyInlineFormatting (line.drop 3) ++ str "</h3>"], inL1, inO1)
  else if hasPre (str "# ") line then
    (closers ++ [str "<h2>" ++ applyInlineFormatting (line.drop 2) ++ str "</h2>"], inL1, inO1)
  else if hasPre (str "- ") line then
    (closers ++ (if inL1 then [] else [str "<ul>"]) ++
       [str "<li>" ++ applyInlineFormatting (line.drop 2) ++ str "</li>"], true, inO1)
  else
    match orderedMatchLen line with
    | some n =>
      (closers ++ (if inO1 then [] else [str "<ol>"]) ++
         [str "<li>" ++ applyInlineFormatting (line.drop n) ++ str "</li>"], inL1, true)
    | none =>
      if isBlankLine line then (closers ++ [[]], inL1, inO1)
      else (closers ++ [str "<p>" ++ applyInlineFormatting line ++ str "</p>"], inL1, inO1)

/-- The full line loop of `renderMarkdown`, including the final closing
of any still-open list. -/
def renderLines : List (List Char) → Bool → Bool → List (List Char)
  | [], inL, inO =>
    (if inL then [str "</ul>"] else []) ++ (if inO then [str "</ol>"] else [])
  | line :: rest, inL, inO =>
    let out := renderOneLine line inL inO
    out.1 ++ renderLines rest out.2.1 out.2.2

/-- `renderMarkdown` from `src/unnamed/part_001`: escape HTML first, then
split into lines, process each line, and join with newlines. -/
def renderMarkdown (md : String) : String :=
  String.mk (joinNl (renderLines (splitOnNl (escapeHtml md.toList)) false false))

/-- The three entities the escape stage emits. -/
def entityAtoms : List (List Char) := [str "&amp;", str "&lt;", str "&gt;"]

/-- Every tag string `renderMarkdown` and `applyInlineFormatting` emit. -/
def tagAtoms : List (List Char) :=
  [str "<h2>", str "</h2>", str "<h3>", str "</h3>", str "<h4>", str "</h4>",
   str "<ul>", str "</ul>", str "<ol>", str "</ol>", str "<li>", str "</li>",
   str "<p>", str "</p>", str "<code>", str "</code>",
   str "<strong>", str "</strong>", str "<em>", str "</em>"]

/-- Entities plus renderer-emitted tags. -/
def htmlAtoms : List (List Char) := entityAtoms ++ tagAtoms

/-- A character sequence is safe when it is a concatenation of ordinary
characters (no raw `&`, `<`, `>`) and whole atoms from the allowed list:
every `&`, `<`, `>` it contains lies inside an allowed entity or tag. -/
inductive SafeSeq (atoms : List (List Char)) : List Char → Prop
  | nil : SafeSeq atoms []
  | chr {c : Char} {rest : List Char} :
      c ≠ '&' → c ≠ '<' → c ≠ '>' → SafeSeq atoms rest → SafeSeq atoms (c :: rest)
  | atom (a : List Char) (rest : List Char) :
      a ∈ atoms → SafeSeq atoms rest → SafeSeq atoms (a ++ rest)

/-- A transcript as it can stand after diarization: one segment with a
diarization label and one alignment-gap segment with no speaker. -/
def gapTranscript : List TranscriptSegment :=
  [{ text := "hello", start := 0, endTime := 1, speaker := some "SPEAKER_00" },
   { text := "inaudible", start := 1, endTime := 2, speaker := none }]

/-- A session in the `labeling` stage over `gapTranscript`, with one
detected speaker and the modal open. -/
def labelingState : AppState :=
  { initAppState with
      processingState := .labeling
      showLabelingModal := true
      detectedSpeakers := [{ label := "SPEAKER_00", suggestedName := none, confidence := 0, excerpts := ["hello"] }]
      transcript := gapTranscript }

/-- A session waiting on the diarization response. -/
def diarizingState : AppState :=
  { initAppState with processingState := .diarizing, transcript := gapTranscript }

/-- C6: invoking start while a session is recording or processing leaves the
whole application state unchanged — the gate `canStartRecording` is false, so
the Start button is not rendered, nothing transitions, and no pending start
is recorded anywhere in the state (nothing is queued). -/
theorem start_rejected_when_active :
    ∀ s : AppState, (s.isRecording = true ∨ s.processingState ≠ ProcessingState.idle) →
      ∀ err, step s (.startEv err) = s := by
  intro s h err
  have hc : canStartRecording s = false := by
    rcases h with h | h
    · simp [canStartRecording, h]
    · simp [canStartRecording, h]
  simp [step, hc]

/-- Witness for `start_rejected_when_active` at a recording session. -/
theorem start_rejected_when_active_witness :
    ({ initAppState with isRecording := true, processingState := ProcessingState.recording } : AppState).isRecording = true ∧
      step { initAppState with isRecording := true, processingState := ProcessingState.recording } (.startEv none) =
        { initAppState with isRecording := true, processingState := ProcessingState.recording } :=
  ⟨rfl, start_rejected_when_active _ (Or.inl rfl) none⟩

/-- C8: during the polling loop the live transcript is replaced only by a
strictly longer segment list, so its displayed length never decreases
across any sequence of poll responses. -/
theorem pollTranscript_monotone :
    (∀ t r, pollStep t r = t ∨
        ∃ segs, r = some segs ∧ pollStep t r = segs ∧ t.length < segs.length) ∧
    (∀ (t : List TranscriptSegment) (rs : List (Option (List TranscriptSegment))),
        t.length ≤ (rs.foldl pollStep t).length) := by
  constructor
  · intro t r
    cases r with
    | none => exact Or.inl rfl
    | some segs =>
      by_cases hl : segs.length > t.length
      · exact Or.inr ⟨segs, rfl, by simp [pollStep, hl], hl⟩
      · exact Or.inl (by simp [pollStep, hl])
  · intro t rs
    induction rs generalizing t with
    | nil => simp
    | cons r rs ih =>
      have h1 : t.length ≤ (pollStep t r).length := by
        cases r with
        | none => simp [pollStep]
        | some segs =>
          by_cases hl : segs.length > t.length
          · simp [pollStep, hl]; omega
          · simp [pollStep, hl]
      exact le_trans h1 (ih (pollStep t r))

/-- C4 counterexample: the frontend sends a request whose `type` is
`start_recording`, which is outside the claimed closed set — likewise
`get_transcript` and `stop_recording`. -/
theorem request_type_outside_spec_set_cex :
    (startRecordingMsg "default").type ∈ sentRequestTypes ∧
      (startRecordingMsg "default").type ∉ specClosedRequestTypes ∧
      getTranscriptMsg.type ∉ specClosedRequestTypes ∧
      stopRecordingMsg.type ∉ specClosedRequestTypes := by
  decide

/-- C4 amended: every request type the frontend sends is drawn from the
spec's closed set extended with the three recording-control types
`start_recording`, `stop_recording`, `get_transcript`. -/
theorem frontend_request_types_closed :
    ∀ t ∈ sentRequestTypes,
      t ∈ specClosedRequestTypes ∨ t ∈ ["start_recording", "stop_recording", "get_transcript"] := by
  decide

/-- Witness for `frontend_request_types_closed` at the `diarize` request. -/
theorem frontend_request_types_closed_witness :
    (diarizeMsg "a.wav" none).type ∈ sentRequestTypes ∧
      ((diarizeMsg "a.wav" none).type ∈ specClosedRequestTypes ∨
        (diarizeMsg "a.wav" none).type ∈ ["start_recording", "stop_recording", "get_transcript"]) :=
  ⟨by decide, frontend_request_types_closed (diarizeMsg "a.wav" none).type (by decide)⟩

/-- C7 counterexample: on a schedule where the modal stays open for three
200 ms ticks, the `waitForLabeling` interval callback wakes four times
though the user's close action happens once — it wakes on every tick
while nothing has happened, so the wait is a periodic poll, not an
event-driven wait that wakes only on the confirm/skip signal. -/
theorem waitForLabeling_busy_polls_cex :
    waitForLabelingTicks [true, true, true, false] = some 3 ∧
      wakeCount [true, true, true, false] = 4 ∧
      1 < wakeCount [true, true, true, false] := by
  decide

/-- C7 amended: the labeling wait has no timeout (it resolves only when a
tick observes the modal closed, and never on an all-open schedule) and
completes at the first tick after confirm/skip clears the flag, but it is
realized as a 200 ms periodic poll: the callback wakes at every tick up
to and including the resolving one. -/
theorem waitForLabeling_poll_behavior :
    ∀ flags : List Bool,
      (waitForLabelingTicks flags = none ↔ false ∉ flags) ∧
      (∀ k, waitForLabelingTicks flags = some k →
        flags.get? k = some false ∧ (∀ j, j < k → flags.get? j = some true) ∧
          wakeCount flags = k + 1) := by
  intro flags
  induction flags with
  | nil =>
    constructor
    · simp [waitForLabelingTicks]
    · intro k hk; simp [waitForLabelingTicks] at hk
  | cons b rest ih =>
    by_cases hb : b = true
    · subst hb
      constructor
      · simp only [waitForLabelingTicks, if_true]
        rw [Option.map_eq_none']
        rw [ih.1]
        simp
      · intro k hk
        simp only [waitForLabelingTicks, if_true] at hk
        rw [Option.map_eq_some'] at hk
        obtain ⟨k', hk', rfl⟩ := hk
        obtain ⟨h1, h2, h3⟩ := ih.2 k' hk'
        refine ⟨by simpa using h1, ?_, ?_⟩
        · intro j hj
          cases j with
          | zero => simp
          | succ j' => simpa using h2 j' (by omega)
        · simp [wakeCount, waitForLabelingTicks, hk']
    · have hb' : b = false := by simpa using hb
      subst hb'
      constructor
      · simp [waitForLabelingTicks]
      · intro k hk
        simp only [waitForLabelingTicks, if_false] at hk
        have hk0 : k = 0 := by simpa using hk.symm
        subst hk0
        refine ⟨by simp, by omega, ?_⟩
        simp [wakeCount, waitForLabelingTicks]

/-- Witness for `waitForLabeling_poll_behavior` at a two-tick schedule. -/
theorem waitForLabeling_poll_behavior_witness :
    waitForLabelingTicks [true, false] = some 1 ∧
      ([true, false].get? 1 = some false ∧ (∀ j, j < 1 → [true, false].get? j = some true) ∧
        wakeCount [true, false] = 1 + 1) :=
  ⟨by decide, (waitForLabeling_poll_behavior [true, false]).2 1 (by decide)⟩

/-- Invariant of reachable states: the labeling modal is open only in the
`labeling` stage, and `isRecording` holds only in the `recording` stage. -/
theorem reach_invariant :
    ∀ s, Reach s →
      (s.showLabelingModal = true → s.processingState = ProcessingState.labeling) ∧
      (s.isRecording = true → s.processingState = ProcessingState.recording) := by
  intro s h
  induction h with
  | init =>
    refine ⟨?_, ?_⟩ <;> intro hx <;> simp [initAppState] at hx
  | next e hr ih =>
    rename_i t
    obtain ⟨ih1, ih2⟩ := ih
    cases e with
    | startEv err =>
      simp only [step]
      by_cases hg : canStartRecording t = true
      · have hidle : t.processingState = ProcessingState.idle := by
          simp [canStartRecording] at hg
          tauto
        have hmodal : t.showLabelingModal = false := by
          cases hsm : t.showLabelingModal with
          | false => rfl
          | true => have h5 := ih1 hsm; rw [hidle] at h5; simp at h5
        rw [if_pos hg]
        cases err with
        | none =>
          refine ⟨?_, ?_⟩
          · intro hx
            have h5 : t.showLabelingModal = true := hx
            rw [hmodal] at h5; exact Bool.noConfusion h5
          · intro _; rfl
        | some msg =>
          refine ⟨?_, ?_⟩
          · intro hx
            have h5 : t.showLabelingModal = true := hx
            rw [hmodal] at h5; exact Bool.noConfusion h5
          · intro hx; exact Bool.noConfusion hx
      · rw [if_neg hg]; exact ⟨ih1, ih2⟩
    | stopEv err =>
      simp only [step]
      by_cases hg : t.isRecording = true
      · have hrec : t.processingState = ProcessingState.recording := ih2 hg
        have hmodal : t.showLabelingModal = false := by
          cases hsm : t.showLabelingModal with
          | false => rfl
          | true => have h5 := ih1 hsm; rw [hrec] at h5; simp at h5
        rw [if_pos hg]
        cases err with
        | none =>
          refine ⟨?_, ?_⟩
          · intro hx
            have h5 : t.showLabelingModal = true := hx
            rw [hmodal] at h5; exact Bool.noConfusion h5
          · intro hx; exact Bool.noConfusion hx
        | some msg =>
          refine ⟨?_, ?_⟩
          · intro hx
            have h5 : t.showLabelingModal = true := hx
            rw [hmodal] at h5; exact Bool.noConfusion h5
          · intro hx; exact Bool.noConfusion hx
      · rw [if_neg hg]; exact ⟨ih1, ih2⟩
    | pollEv r =>
      simp only [step]
      by_cases hg : t.isRecording = true
      · rw [if_pos hg]; exact ⟨ih1, ih2⟩
      · rw [if_neg hg]; exact ⟨ih1, ih2⟩
    | diarizeEv r =>
      simp only [step]
      by_cases hg : t.processingState = ProcessingState.diarizing
      · have hnr : t.isRecording = false := by
          cases hir : t.isRecording with
          | false => rfl
          | true => have h5 := ih2 hir; rw [hg] at h5; simp at h5
        have hmodal : t.showLabelingModal = false := by
          cases hsm : t.showLabelingModal with
          | false => rfl
          | true => have h5 := ih1 hsm; rw [hg] at h5; simp at h5
        rw [if_pos hg]
        cases r with
        | ok res =>
          refine ⟨?_, ?_⟩
          · intro _; rfl
          · intro hx
            have h5 : t.isRecording = true := hx
            rw [hnr] at h5; exact Bool.noConfusion h5
        | error msg =>
          refine ⟨?_, ?_⟩
          · intro hx
            have h5 : t.showLabelingModal = true := hx
            rw [hmodal] at h5; exact Bool.noConfusion h5
          · intro hx
            have h5 : t.isRecording = true := hx
            rw [hnr] at h5; exact Bool.noConfusion h5
      · rw [if_neg hg]; exact ⟨ih1, ih2⟩
    | confirmEv names =>
      simp only [step]
      by_cases hg : t.showLabelingModal = true
      · have hlab : t.processingState = ProcessingState.labeling := ih1 hg
        have hnr : t.isRecording = false := by
          cases hir : t.isRecording with
          | false => rfl
          | true => have h5 := ih2 hir; rw [hlab] at h5; simp at h5
        rw [if_pos hg]
        unfold handleConfirm
        by_cases hal : allLabeled names t = true
        · rw [if_pos hal]
          refine ⟨?_, ?_⟩
          · intro hx; exact Bool.noConfusion hx
          · intro hx
            have h5 : t.isRecording = true := hx
            rw [hnr] at h5; exact Bool.noConfusion h5
        · rw [if_neg hal]; exact ⟨ih1, ih2⟩
      · rw [if_neg hg]; exact ⟨ih1, ih2⟩
    | skipEv =>
      simp only [step]
      by_cases hg : t.showLabelingModal = true
      · have hlab : t.processingState = ProcessingState.labeling := ih1 hg
        have hnr : t.isRecording = false := by
          cases hir : t.isRecording with
          | false => rfl
          | true => have h5 := ih2 hir; rw [hlab] at h5; simp at h5
        rw [if_pos hg]
        unfold handleSkip
        refine ⟨?_, ?_⟩
        · intro hx; exact Bool.noConfusion hx
        · intro hx
          have h5 : t.isRecording = true := hx
          rw [hnr] at h5; exact Bool.noConfusion h5
      · rw [if_neg hg]; exact ⟨ih1, ih2⟩
    | summarizeEv err =>
      simp only [step]
      by_cases hg : t.processingState = ProcessingState.summarizing
      · have hnr : t.isRecording = false := by
          cases hir : t.isRecording with
          | false => rfl
          | true => have h5 := ih2 hir; rw [hg] at h5; simp at h5
        have hmodal : t.showLabelingModal = false := by
          cases hsm : t.showLabelingModal with
          | false => rfl
          | true => have h5 := ih1 hsm; rw [hg] at h5; simp at h5
        rw [if_pos hg]
        cases err with
        | none =>
          refine ⟨?_, ?_⟩
          · intro hx
            have h5 : t.showLabelingModal = true := hx
            rw [hmodal] at h5; exact Bool.noConfusion h5
          · intro hx
            have h5 : t.isRecording = true := hx
            rw [hnr] at h5; exact Bool.noConfusion h5
        | some msg =>
          refine ⟨?_, ?_⟩
          · intro hx
            have h5 : t.showLabelingModal = true := hx
            rw [hmodal] at h5; exact Bool.noConfusion h5
          · intro hx
            have h5 : t.isRecording = true := hx
            rw [hnr] at h5; exact Bool.noConfusion h5
      · rw [if_neg hg]; exact ⟨ih1, ih2⟩
    | dismissEv =>
      simp only [step]
      by_cases hg : t.processingState = ProcessingState.complete
      · have hnr : t.isRecording = false := by
          cases hir : t.isRecording with
          | false => rfl
          | true => have h5 := ih2 hir; rw [hg] at h5; simp at h5
        have hmodal : t.showLabelingModal = false := by
          cases hsm : t.showLabelingModal with
          | false => rfl
          | true => have h5 := ih1 hsm; rw [hg] at h5; simp at h5
        rw [if_pos hg]
        refine ⟨?_, ?_⟩
        · intro hx
          have h5 : t.showLabelingModal = true := hx
          rw [hmodal] at h5; exact Bool.noConfusion h5
        · intro hx
          have h5 : t.isRecording = true := hx
          rw [hnr] at h5; exact Bool.noConfusion h5
      · rw [if_neg hg]; exact ⟨ih1, ih2⟩

/-- C1: from any reachable state, the processing state either stays put,
resets to `idle` (the code's failure/dismiss paths), or advances exactly
one stage along `idle → recording → diarizing → labeling → summarizing →
complete`, with the stage boundary crossed only by its named trigger; and
each named trigger does advance its stage: start moves `idle` to
`recording`, stop moves `recording` to `diarizing`, the diarization
response moves `diarizing` to `labeling`, confirm or skip moves
`labeling` to `summarizing`, and the summarization response moves
`summarizing` to `complete`. -/
theorem processing_advances_in_order :
    (∀ s, Reach s → ∀ e,
        (step s e).processingState = s.processingState ∨
        (step s e).processingState = ProcessingState.idle ∨
        (s.processingState = ProcessingState.idle ∧
          (step s e).processingState = ProcessingState.recording ∧ ∃ err, e = .startEv err) ∨
        (s.processingState = ProcessingState.recording ∧
          (step s e).processingState = ProcessingState.diarizing ∧ ∃ err, e = .stopEv err) ∨
        (s.processingState = ProcessingState.diarizing ∧
          (step s e).processingState = ProcessingState.labeling ∧ ∃ r, e = .diarizeEv (.ok r)) ∨
        (s.processingState = ProcessingState.labeling ∧
          (step s e).processingState = ProcessingState.summarizing ∧
          ((∃ names, e = .confirmEv names) ∨ e = .skipEv)) ∨
        (s.processingState = ProcessingState.summarizing ∧
          (step s e).processingState = ProcessingState.complete ∧ e = .summarizeEv none)) ∧
    (∀ s, canStartRecording s = true →
      (step s (.startEv none)).processingState = ProcessingState.recording) ∧
    (∀ s, s.isRecording = true →
      (step s (.stopEv none)).processingState = ProcessingState.diarizing) ∧
    (∀ s r, s.processingState = ProcessingState.diarizing →
      (step s (.diarizeEv (.ok r))).processingState = ProcessingState.labeling) ∧
    (∀ s names, s.showLabelingModal = true → allLabeled names s = true →
      (step s (.confirmEv names)).processingState = ProcessingState.summarizing) ∧
    (∀ s, s.showLabelingModal = true →
      (step s .skipEv).processingState = ProcessingState.summarizing) ∧
    (∀ s, s.processingState = ProcessingState.summarizing →
      (step s (.summarizeEv none)).processingState = ProcessingState.complete) := by
  refine ⟨?_, ?_, ?_, ?_, ?_, ?_, ?_⟩
  · intro s hr e
    obtain ⟨inv1, inv2⟩ := reach_invariant s hr
    cases e with
    | startEv err =>
      by_cases hg : canStartRecording s = true
      · have hidle : s.processingState = ProcessingState.idle := by
          simp [canStartRecording] at hg
          tauto
        cases err with
        | none =>
          refine Or.inr (Or.inr (Or.inl ⟨hidle, ?_, none, rfl⟩))
          simp [step, hg, startApply]
        | some msg =>
          refine Or.inr (Or.inl ?_)
          simp [step, hg, startFailApply]
      · left; simp [step, hg]
    | stopEv err =>
      by_cases hg : s.isRecording = true
      · have hrec : s.processingState = ProcessingState.recording := inv2 hg
        cases err with
        | none =>
          refine Or.inr (Or.inr (Or.inr (Or.inl ⟨hrec, ?_, none, rfl⟩)))
          simp [step, hg, stopApply]
        | some msg =>
          refine Or.inr (Or.inl ?_)
          simp [step, hg, stopFailApply]
      · left; simp [step, hg]
    | pollEv r =>
      left
      by_cases hg : s.isRecording = true
      · simp [step, hg]
      · simp [step, hg]
    | diarizeEv r =>
      by_cases hg : s.processingState = ProcessingState.diarizing
      · cases r with
        | ok res =>
          refine Or.inr (Or.inr (Or.inr (Or.inr (Or.inl ⟨hg, ?_, res, rfl⟩))))
          simp [step, hg, diarizeApply]
        | error msg =>
          refine Or.inr (Or.inl ?_)
          simp [step, hg, pipelineFailApply]
      · left; simp [step, hg]
    | confirmEv names =>
      by_cases hg : s.showLabelingModal = true
      · have hlab : s.processingState = ProcessingState.labeling := inv1 hg
        by_cases hal : allLabeled names s = true
        · refine Or.inr (Or.inr (Or.inr (Or.inr (Or.inr (Or.inl
            ⟨hlab, ?_, Or.inl ⟨names, rfl⟩⟩)))))
          simp [step, hg, handleConfirm, hal]
        · left; simp [step, hg, handleConfirm, hal]
      · left; simp [step, hg]
    | skipEv =>
      by_cases hg : s.showLabelingModal = true
      · have hlab : s.processingState = ProcessingState.labeling := inv1 hg
        refine Or.inr (Or.inr (Or.inr (Or.inr (Or.inr (Or.inl ⟨hlab, ?_, Or.inr rfl⟩)))))
        simp [step, hg, handleSkip]
      · left; simp [step, hg]
    | summarizeEv err =>
      by_cases hg : s.processingState = ProcessingState.summarizing
      · cases err with
        | none =>
          refine Or.inr (Or.inr (Or.inr (Or.inr (Or.inr (Or.inr ⟨hg, ?_, rfl⟩)))))
          simp [step, hg]
        | some msg =>
          refine Or.inr (Or.inl ?_)
          simp [step, hg, pipelineFailApply]
      · left; simp [step, hg]
    | dismissEv =>
      by_cases hg : s.processingState = ProcessingState.complete
      · refine Or.inr (Or.inl ?_)
        simp [step, hg]
      · left; simp [step, hg]
  · intro s hg; simp [step, hg, startApply]
  · intro s hg; simp [step, hg, stopApply]
  · intro s r hg; simp [step, hg, diarizeApply]
  · intro s names hg hal; simp [step, hg, handleConfirm, hal]
  · intro s hg; simp [step, hg, handleSkip]
  · intro s hg; simp [step, hg]

/-- Witness for `processing_advances_in_order`: the start trigger at the
initial state, the stop trigger at a recording state, and the skip
trigger at `labelingState`. -/
theorem processing_advances_in_order_witness :
    Reach initAppState ∧
    canStartRecording initAppState = true ∧
    (step initAppState (.startEv none)).processingState = ProcessingState.recording ∧
    labelingState.showLabelingModal = true ∧
    (step labelingState .skipEv).processingState = ProcessingState.summarizing ∧
    diarizingState.processingState = ProcessingState.diarizing ∧
    (step diarizingState (.diarizeEv (.ok { segments := none, speakers := none }))).processingState =
      ProcessingState.labeling :=
  ⟨Reach.init, by decide,
   processing_advances_in_order.2.1 initAppState (by decide), by decide,
   processing_advances_in_order.2.2.2.2.2.1 labelingState (by decide), by decide,
   processing_advances_in_order.2.2.2.1 diarizingState { segments := none, speakers := none } (by decide)⟩

/-- C2 counterexample: `ProcessingState` has no `error` alternative at
all — every value is one of the six pipeline stages — and a mid-pipeline
failure (the diarization request failing) puts the session in `idle`,
from which `canStartRecording` is immediately true again: the failed
session is not parked in a terminal error state. -/
theorem error_state_missing_cex :
    (∀ p : ProcessingState,
        p = ProcessingState.idle ∨ p = ProcessingState.recording ∨
        p = ProcessingState.diarizing ∨ p = ProcessingState.labeling ∨
        p = ProcessingState.summarizing ∨ p = ProcessingState.complete) ∧
      (step diarizingState (.diarizeEv (.error "diarization failed"))).processingState =
        ProcessingState.idle ∧
      canStartRecording (step diarizingState (.diarizeEv (.error "diarization failed"))) = true := by
  refine ⟨fun p => ?_, by decide, by decide⟩
  cases p <;> simp

/-- C2 amended: an unrecoverable failure in any stage that awaits a
sidecar response (stopping, diarizing, summarizing) resets the processing
state to `idle` and records the failure message for display; there is no
dedicated error state, and from the resulting `idle` state a new session
can start. -/
theorem failure_resets_to_idle :
    ∀ (s : AppState) (msg : String),
      (s.isRecording = true →
        step s (.stopEv (some msg)) =
          { s with isRecording := false, errorMessage := msg, processingState := ProcessingState.idle }) ∧
      (s.processingState = ProcessingState.diarizing →
        step s (.diarizeEv (.error msg)) =
          { s with errorMessage := msg, processingState := ProcessingState.idle }) ∧
      (s.processingState = ProcessingState.summarizing →
        step s (.summarizeEv (some msg)) =
          { s with errorMessage := msg, processingState := ProcessingState.idle }) ∧
      (s.processingState = ProcessingState.idle → s.isRecording = false → s.isStarting = false →
        canStartRecording s = true) := by
  intro s msg
  refine ⟨?_, ?_, ?_, ?_⟩
  · intro h; simp [step, h, stopFailApply]
  · intro h; simp [step, h, pipelineFailApply]
  · intro h; simp [step, h, pipelineFailApply]
  · intro h1 h2 h3; simp [canStartRecording, h1, h2, h3]

/-- Witness for `failure_resets_to_idle` at a diarizing session. -/
theorem failure_resets_to_idle_witness :
    diarizingState.processingState = ProcessingState.diarizing ∧
      step diarizingState (.diarizeEv (.error "boom")) =
        { diarizingState with errorMessage := "boom", processingState := ProcessingState.idle } :=
  ⟨rfl, (failure_resets_to_idle diarizingState "boom").2.1 rfl⟩

/-- C9: `handleConfirm` is guarded by `allLabeled` — if any detected
speaker's entered name is empty or whitespace-only it returns the state
completely unchanged (transcript, processing state and modal included),
and whenever it changes anything, every detected speaker's entered name
has a non-empty trimmed value. -/
theorem handleConfirm_guarded :
    ∀ (names : List (String × String)) (s : AppState),
      ((∃ sp ∈ s.detectedSpeakers, (jsTrim ((lookupStr names sp.label).getD "")).isEmpty = true) →
        handleConfirm names s = s) ∧
      (handleConfirm names s ≠ s →
        ∀ sp ∈ s.detectedSpeakers, (jsTrim ((lookupStr names sp.label).getD "")).isEmpty = false) := by
  intro names s
  constructor
  · rintro ⟨sp, hmem, hempty⟩
    have hal : ¬ (allLabeled names s = true) := by
      intro hal
      simp only [allLabeled, Bool.and_eq_true, List.all_eq_true] at hal
      have := hal.2 sp hmem
      simp [hempty] at this
    simp [handleConfirm, hal]
  · intro hne sp hmem
    by_cases hal : allLabeled names s = true
    · simp only [allLabeled, Bool.and_eq_true, List.all_eq_true] at hal
      have := hal.2 sp hmem
      simpa using this
    · exact absurd (by simp [handleConfirm, hal]) hne

/-- Witness for `handleConfirm_guarded`: a whitespace-only entered name
leaves `labelingState` untouched. -/
theorem handleConfirm_guarded_witness :
    (∃ sp ∈ labelingState.detectedSpeakers,
        (jsTrim ((lookupStr [("SPEAKER_00", " ")] sp.label).getD "")).isEmpty = true) ∧
      handleConfirm [("SPEAKER_00", " ")] labelingState = labelingState :=
  ⟨by decide, (handleConfirm_guarded [("SPEAKER_00", " ")] labelingState).1 (by decide)⟩

/-- C3 counterexample: skipping the labeling of `labelingState` rewrites
the labeled segment to `Speaker 1` but leaves the alignment-gap segment's
speaker unset — the rewrite does not cover every segment of the
transcript. -/
theorem skip_leaves_gap_segment_cex :
    (step labelingState .skipEv).transcript =
      [{ text := "hello", start := 0, endTime := 1, speaker := some "Speaker 1" },
       { text := "inaudible", start := 1, endTime := 2, speaker := none }] ∧
      (∃ seg ∈ (step labelingState .skipEv).transcript, seg.speaker = none) := by
  constructor
  · decide
  · decide

/-- A string starting with a character is not empty. -/
theorem string_mk_cons_isEmpty (c : Char) (rest : List Char) :
    (String.mk (c :: rest)).isEmpty = false := by
  simp [String.isEmpty, String.endPos, String.utf8ByteSize, String.Pos.ext_iff]
  have := Char.utf8Size_pos c
  omega

/-- Every entry of `labelToGenericFrom i` pairs the label of the detected
speaker at some index `j` with that index's generic ordinal name. -/
theorem labelToGenericFrom_mem_get :
    ∀ (ds : List DetectedSpeaker) (i : Nat) (pr : String × String),
      pr ∈ labelToGenericFrom i ds →
        ∃ j, ∃ hj : j < ds.length, pr.1 = (ds.get ⟨j, hj⟩).label ∧
          pr.2 = "Speaker " ++ toString (i + j + 1) := by
  intro ds
  induction ds with
  | nil => intro i pr h; simp [labelToGenericFrom] at h
  | cons sp rest ih =>
    intro i pr h
    rcases List.mem_cons.mp h with h | h
    · refine ⟨0, by simp, ?_, ?_⟩
      · rw [h]
        rfl
      · rw [h]
    · obtain ⟨j, hj, h1, h2⟩ := ih (i + 1) pr h
      refine ⟨j + 1, by simpa using hj, ?_, ?_⟩
      · rw [h1]
        simp [List.get_cons_succ]
      · rw [h2]
        congr 2
        omega

/-- Every detected speaker's label is a key of `labelToGenericFrom i`. -/
theorem labelToGenericFrom_key :
    ∀ (ds : List DetectedSpeaker) (i : Nat) (sp : DetectedSpeaker),
      sp ∈ ds → ∃ pr ∈ labelToGenericFrom i ds, pr.1 = sp.label := by
  intro ds
  induction ds with
  | nil => intro i sp h; simp at h
  | cons d rest ih =>
    intro i sp h
    rcases List.mem_cons.mp h with h | h
    · exact ⟨(d.label, "Speaker " ++ toString (i + 1)), by simp [labelToGenericFrom], by rw [h]⟩
    · obtain ⟨pr, hpr, hkey⟩ := ih (i + 1) sp h
      exact ⟨pr, by simp [labelToGenericFrom, hpr], hkey⟩

/-- If no detected speaker carries label `l`, the `labelToGeneric` lookup
used by `handleSkip` misses. -/
theorem lookupLast_labelToGeneric_none :
    ∀ (ds : List DetectedSpeaker) (l : String), (¬ ∃ sp ∈ ds, sp.label = l) →
      lookupLast (labelToGeneric ds) l = none := by
  intro ds l hnex
  have hfind : (labelToGeneric ds).reverse.find? (fun p => p.1 == l) = none := by
    rw [List.find?_eq_none]
    intro pr hpr hbeq
    have hpr2 : pr ∈ labelToGenericFrom 0 ds := by
      simpa [labelToGeneric] using List.mem_reverse.mp hpr
    obtain ⟨j, hj, h1, -⟩ := labelToGenericFrom_mem_get ds 0 pr hpr2
    refine hnex ⟨ds.get ⟨j, hj⟩, List.get_mem ds j hj, ?_⟩
    rw [← h1]
    exact (eq_of_beq hbeq).symm ▸ rfl
  simp [lookupLast, hfind]

/-- If some detected speaker carries label `l`, the `labelToGeneric`
lookup yields the generic ordinal name of an index whose detected speaker
bears exactly that label. -/
theorem lookupLast_labelToGeneric_some :
    ∀ (ds : List DetectedSpeaker) (l : String), (∃ sp ∈ ds, sp.label = l) →
      ∃ j, ∃ hj : j < ds.length, (ds.get ⟨j, hj⟩).label = l ∧
        lookupLast (labelToGeneric ds) l = some ("Speaker " ++ toString (j + 1)) := by
  intro ds l hex
  obtain ⟨sp, hsp, hl⟩ := hex
  obtain ⟨pr, hpr, hkey⟩ := labelToGenericFrom_key ds 0 sp hsp
  have hsome : ((labelToGeneric ds).reverse.find? (fun p => p.1 == l)).isSome := by
    rw [List.find?_isSome]
    refine ⟨pr, ?_, ?_⟩
    · simpa [labelToGeneric] using hpr
    · simp [hkey, hl]
  obtain ⟨pr0, hpr0⟩ := Option.isSome_iff_exists.mp hsome
  have hkey0 : pr0.1 = l := by
    have h0 := List.find?_some hpr0
    simp only [beq_iff_eq] at h0
    exact h0
  have hpr0mem : pr0 ∈ labelToGenericFrom 0 ds := by
    simpa [labelToGeneric] using List.mem_reverse.mp (List.mem_of_find?_eq_some hpr0)
  obtain ⟨j, hj, h1, h2⟩ := labelToGenericFrom_mem_get ds 0 pr0 hpr0mem
  have hz : (0 : Nat) + j + 1 = j + 1 := by omega
  rw [hz] at h2
  refine ⟨j, hj, ?_, ?_⟩
  · rw [← h1]
    exact hkey0
  · simp [lookupLast, hpr0, h2]

/-- When the name map has keys only among a label set that misses `l`
(the modal initializes `speakerNames` with exactly the detected labels),
the lookup misses. -/
theorem lookupStr_eq_none :
    ∀ (names : List (String × String)) (l : String), (∀ p ∈ names, ¬ p.1 = l) →
      lookupStr names l = none := by
  intro names l hmiss
  have hfind : names.find? (fun p => p.1 == l) = none := by
    rw [List.find?_eq_none]
    intro pr hpr hbeq
    exact hmiss pr hpr (eq_of_beq hbeq)
  simp [lookupStr, hfind]

/-- Generic ordinal names are never the empty string. -/
theorem speakerName_isEmpty (i : Nat) :
    ("Speaker " ++ toString (i + 1)).isEmpty = false := by
  have hmk : ("Speaker " ++ toString (i + 1)) =
      String.mk ('S' :: 'p' :: 'e' :: 'a' :: 'k' :: 'e' :: 'r' :: ' ' :: (toString (i + 1)).data) := by
    cases htos : toString (i + 1) with
    | mk d => rfl
  rw [hmk, string_mk_cons_isEmpty]

/-- Computation rule for `confirmSpeaker` on a truthy label with a truthy
entered name. -/
theorem confirmSpeaker_some (names : List (String × String)) (l n : String)
    (hl : l.isEmpty = false) (hlook : lookupStr names l = some n) (hn : n.isEmpty = false) :
    confirmSpeaker names (some l) = some (jsTrim n) := by
  simp [confirmSpeaker, hl, hlook, hn]

/-- Computation rule for `skipSpeaker` on a truthy label with a truthy
generic name. -/
theorem skipSpeaker_some (gen : List (String × String)) (l n : String)
    (hl : l.isEmpty = false) (hlook : lookupLast gen l = some n) (hn : n.isEmpty = false) :
    skipSpeaker gen (some l) = some n := by
  simp [skipSpeaker, hl, hlook, hn]

/-- `skipSpeaker` keeps a label that is empty or has no generic entry. -/
theorem skipSpeaker_keep (gen : List (String × String)) (l : String)
    (h : l.isEmpty = true ∨ lookupLast gen l = none) :
    skipSpeaker gen (some l) = some l := by
  by_cases hemp : l.isEmpty = true
  · simp [skipSpeaker, hemp]
  · rcases h with h | h
    · exact absurd h hemp
    · simp [skipSpeaker, hemp, h]

/-- `confirmSpeaker` keeps a label that is empty or has no entered name. -/
theorem confirmSpeaker_keep (names : List (String × String)) (l : String)
    (h : l.isEmpty = true ∨ lookupStr names l = none) :
    confirmSpeaker names (some l) = some l := by
  by_cases hemp : l.isEmpty = true
  · simp [confirmSpeaker, hemp]
  · rcases h with h | h
    · exact absurd h hemp
    · simp [confirmSpeaker, hemp, h]

/-- C3 amended, per segment: under a name map whose keys are detected
labels (as the modal builds it), both labeling paths preserve the
transcript's length and every segment's text and timestamps; a segment
whose speaker is a non-empty label of some detected speaker is rewritten
— skip to the generic ordinal name of a detected-speaker index bearing
that very label, confirm to the trimmed name entered for that very label
— while a segment whose speaker is absent, empty, or a label outside the
detected set keeps its speaker unchanged. -/
theorem labeling_rewrites_pointwise :
    ∀ (s : AppState) (names : List (String × String)),
      (∀ p ∈ names, ∃ sp ∈ s.detectedSpeakers, sp.label = p.1) →
      ((handleSkip s).transcript.length = s.transcript.length ∧
       (handleConfirm names s).transcript.length = s.transcript.length ∧
       (∀ i (hi : i < s.transcript.length) (hi2 : i < (handleSkip s).transcript.length),
         ((handleSkip s).transcript.get ⟨i, hi2⟩).text = (s.transcript.get ⟨i, hi⟩).text ∧
         ((handleSkip s).transcript.get ⟨i, hi2⟩).start = (s.transcript.get ⟨i, hi⟩).start ∧
         ((handleSkip s).transcript.get ⟨i, hi2⟩).endTime = (s.transcript.get ⟨i, hi⟩).endTime ∧
         ((s.transcript.get ⟨i, hi⟩).speaker = none →
           ((handleSkip s).transcript.get ⟨i, hi2⟩).speaker = none) ∧
         (∀ l, (s.transcript.get ⟨i, hi⟩).speaker = some l →
           ((l.isEmpty = true ∨ ¬ (∃ sp ∈ s.detectedSpeakers, sp.label = l)) →
             ((handleSkip s).transcript.get ⟨i, hi2⟩).speaker = some l) ∧
           (l.isEmpty = false → (∃ sp ∈ s.detectedSpeakers, sp.label = l) →
             ∃ j, ∃ hj : j < s.detectedSpeakers.length,
               (s.detectedSpeakers.get ⟨j, hj⟩).label = l ∧
               ((handleSkip s).transcript.get ⟨i, hi2⟩).speaker =
                 some ("Speaker " ++ toString (j + 1))))) ∧
       (allLabeled names s = true →
         ∀ i (hi : i < s.transcript.length) (hi2 : i < (handleConfirm names s).transcript.length),
           ((handleConfirm names s).transcript.get ⟨i, hi2⟩).text = (s.transcript.get ⟨i, hi⟩).text ∧
           ((handleConfirm names s).transcript.get ⟨i, hi2⟩).start = (s.transcript.get ⟨i, hi⟩).start ∧
           ((handleConfirm names s).transcript.get ⟨i, hi2⟩).endTime = (s.transcript.get ⟨i, hi⟩).endTime ∧
           ((s.transcript.get ⟨i, hi⟩).speaker = none →
             ((handleConfirm names s).transcript.get ⟨i, hi2⟩).speaker = none) ∧
           (∀ l, (s.transcript.get ⟨i, hi⟩).speaker = some l →
             ((l.isEmpty = true ∨ ¬ (∃ sp ∈ s.detectedSpeakers, sp.label = l)) →
               ((handleConfirm names s).transcript.get ⟨i, hi2⟩).speaker = some l) ∧
             (∀ n, l.isEmpty = false → lookupStr names l = some n → n.isEmpty = false →
               ((handleConfirm names s).transcript.get ⟨i, hi2⟩).speaker = some (jsTrim n)) ∧
             (l.isEmpty = false → (∃ sp ∈ s.detectedSpeakers, sp.label = l) →
               ∃ n, lookupStr names l = some n ∧ (jsTrim n).isEmpty = false ∧
                 ((handleConfirm names s).transcript.get ⟨i, hi2⟩).speaker = some (jsTrim n))))) := by
  intro s names hkeys
  have hLcN : ∀ l, (¬ ∃ sp ∈ s.detectedSpeakers, sp.label = l) → lookupStr names l = none := by
    intro l hnex
    refine lookupStr_eq_none names l ?_
    intro p hp hpl
    obtain ⟨sp, hsp, hlab⟩ := hkeys p hp
    exact hnex ⟨sp, hsp, by rw [hlab, hpl]⟩
  have hConfEntry : allLabeled names s = true →
      ∀ l, (∃ sp ∈ s.detectedSpeakers, sp.label = l) →
        ∃ n, lookupStr names l = some n ∧ (jsTrim n).isEmpty = false ∧ n.isEmpty = false := by
    intro hal l ⟨sp, hsp, hlab⟩
    have halsp : (jsTrim ((lookupStr names sp.label).getD "")).isEmpty = false := by
      simp only [allLabeled, Bool.and_eq_true, List.all_eq_true] at hal
      simpa using hal.2 sp hsp
    cases hlook : lookupStr names sp.label with
    | none =>
      rw [hlook] at halsp
      simp only [Option.getD_none] at halsp
      have hx : (jsTrim "").isEmpty = true := by decide
      rw [hx] at halsp
      exact Bool.noConfusion halsp
    | some n =>
      rw [hlook] at halsp
      simp only [Option.getD_some] at halsp
      have hnne : n.isEmpty = false := by
        cases hni : n.isEmpty with
        | false => rfl
        | true =>
          rw [String.isEmpty_iff] at hni
          rw [hni] at halsp
          have hx : (jsTrim "").isEmpty = true := by decide
          rw [hx] at halsp
          exact Bool.noConfusion halsp
      exact ⟨n, by rw [← hlab]; exact hlook, halsp, hnne⟩
  have hConfLen : (handleConfirm names s).transcript.length = s.transcript.length := by
    by_cases hal : allLabeled names s = true
    · simp [handleConfirm, hal]
    · simp [handleConfirm, hal]
  refine ⟨by simp [handleSkip], hConfLen, ?_, ?_⟩
  · intro i hi hi2
    have hget : (handleSkip s).transcript.get ⟨i, hi2⟩ =
        { s.transcript.get ⟨i, hi⟩ with
            speaker := skipSpeaker (labelToGeneric s.detectedSpeakers)
              ((s.transcript.get ⟨i, hi⟩).speaker) } := by
      simp [handleSkip, List.get_eq_getElem, List.getElem_map]
    rw [hget]
    refine ⟨rfl, rfl, rfl, ?_, ?_⟩
    · intro hnone
      simp only [hnone]
      rfl
    · intro l hl
      constructor
      · intro hkeep
        simp only [hl]
        refine skipSpeaker_keep _ l ?_
        rcases hkeep with h | h
        · exact Or.inl h
        · exact Or.inr (lookupLast_labelToGeneric_none s.detectedSpeakers l h)
      · intro hne hex
        obtain ⟨j, hj, hjl, hlook⟩ := lookupLast_labelToGeneric_some s.detectedSpeakers l hex
        refine ⟨j, hj, hjl, ?_⟩
        simp only [hl]
        exact skipSpeaker_some _ l _ hne hlook (speakerName_isEmpty j)
  · intro hal i hi hi2
    have hget : (handleConfirm names s).transcript.get ⟨i, hi2⟩ =
        { s.transcript.get ⟨i, hi⟩ with
            speaker := confirmSpeaker names ((s.transcript.get ⟨i, hi⟩).speaker) } := by
      simp [handleConfirm, hal, List.get_eq_getElem, List.getElem_map]
    rw [hget]
    refine ⟨rfl, rfl, rfl, ?_, ?_⟩
    · intro hnone
      simp only [hnone]
      rfl
    · intro l hl
      refine ⟨?_, ?_, ?_⟩
      · intro hkeep
        simp only [hl]
        refine confirmSpeaker_keep names l ?_
        rcases hkeep with h | h
        · exact Or.inl h
        · exact Or.inr (hLcN l h)
      · intro n hne hlook hn
        simp only [hl]
        exact confirmSpeaker_some names l n hne hlook hn
      · intro hne hex
        obtain ⟨n, hlook, htrim, hnne⟩ := hConfEntry hal l hex
        refine ⟨n, hlook, htrim, ?_⟩
        simp only [hl]
        exact confirmSpeaker_some names l n hne hlook hnne

/-- Witness for the amended C3 theorem: on a two-segment transcript whose
first segment carries the detected label "S" and whose second is an
alignment gap, skip renames the covered segment to "Speaker 1" and leaves
the gap's speaker absent, while confirm (with " N " entered for "S")
renames the covered segment to the trimmed name "N". -/
theorem labeling_rewrites_pointwise_witness :
    ((handleSkip ⟨false, false, 0, .labeling, [⟨"a", 0, 1, some "S"⟩, ⟨"b", 1, 2, none⟩], [⟨"S", none, 0, []⟩], true, "", false⟩).transcript.get ⟨0, by decide⟩).speaker = some ("Speaker " ++ toString (0 + 1)) ∧
    ((handleSkip ⟨false, false, 0, .labeling, [⟨"a", 0, 1, some "S"⟩, ⟨"b", 1, 2, none⟩], [⟨"S", none, 0, []⟩], true, "", false⟩).transcript.get ⟨1, by decide⟩).speaker = none ∧
    ((handleConfirm [("S", " N ")] ⟨false, false, 0, .labeling, [⟨"a", 0, 1, some "S"⟩, ⟨"b", 1, 2, none⟩], [⟨"S", none, 0, []⟩], true, "", false⟩).transcript.get ⟨0, by decide⟩).speaker = some (jsTrim " N ") := by
  have h := labeling_rewrites_pointwise
    ⟨false, false, 0, .labeling, [⟨"a", 0, 1, some "S"⟩, ⟨"b", 1, 2, none⟩], [⟨"S", none, 0, []⟩], true, "", false⟩
    [("S", " N ")] (by decide)
  obtain ⟨-, -, hskip, hconf⟩ := h
  refine ⟨?_, ?_, ?_⟩
  · have h0 := hskip 0 (by decide) (by decide)
    obtain ⟨j, hj, hjl, hsp⟩ := (h0.2.2.2.2 "S" (by decide)).2 (by decide)
      ⟨⟨"S", none, 0, []⟩, List.mem_singleton.mpr rfl, rfl⟩
    have hj1 : j < 1 := hj
    have hj0 : j = 0 := by omega
    subst hj0
    exact hsp
  · have h1 := hskip 1 (by decide) (by decide)
    exact h1.2.2.2.1 (by decide)
  · have h0 := hconf (by decide) 0 (by decide) (by decide)
    exact (h0.2.2.2.2 "S" (by decide)).2.1 " N " (by decide) (by decide) (by decide)

/-- Membership in a JS-set insertion. -/
theorem setAdd_mem (acc : List String) (y x : String) :
    x ∈ setAdd acc y ↔ x ∈ acc ∨ x = y := by
  by_cases h : y ∈ acc
  · simp only [setAdd, if_pos h]
    constructor
    · exact fun hx => Or.inl hx
    · rintro (hx | rfl)
      · exact hx
      · exact h
  · simp [setAdd, if_neg h]

/-- JS-set insertion preserves distinctness. -/
theorem setAdd_nodup (acc : List String) (y : String) (h : acc.Nodup) :
    (setAdd acc y).Nodup := by
  by_cases hy : y ∈ acc
  · simpa [setAdd, if_pos hy] using h
  · simp [setAdd, if_neg hy, List.nodup_append, h, hy]

/-- Membership characterization of the speaker-label collection loop,
generalized over the accumulator. -/
theorem mem_collect_aux :
    ∀ (t : List TranscriptSegment) (acc : List String) (l : String),
      l ∈ t.foldl (fun acc seg =>
          match seg.speaker with
          | some l' => if l'.isEmpty then acc else setAdd acc l'
          | none => acc) acc ↔
        l ∈ acc ∨ ∃ seg ∈ t, seg.speaker = some l ∧ l.isEmpty = false := by
  intro t
  induction t with
  | nil => intro acc l; simp
  | cons seg rest ih =>
    intro acc l
    rw [List.foldl_cons, ih]
    cases hspk : seg.speaker with
    | none =>
      simp only [hspk]
      constructor
      · rintro (h | h)
        · exact Or.inl h
        · exact Or.inr (by obtain ⟨sg, hsg, h2⟩ := h; exact ⟨sg, List.mem_cons_of_mem _ hsg, h2⟩)
      · rintro (h | ⟨sg, hsg, h2, h3⟩)
        · exact Or.inl h
        · rcases List.mem_cons.mp hsg with rfl | hsg'
          · rw [hspk] at h2; exact Option.noConfusion h2
          · exact Or.inr ⟨sg, hsg', h2, h3⟩
    | some l' =>
      by_cases hemp : l'.isEmpty = true
      · simp only [hspk, if_pos hemp]
        constructor
        · rintro (h | h)
          · exact Or.inl h
          · exact Or.inr (by obtain ⟨sg, hsg, h2⟩ := h; exact ⟨sg, List.mem_cons_of_mem _ hsg, h2⟩)
        · rintro (h | ⟨sg, hsg, h2, h3⟩)
          · exact Or.inl h
          · rcases List.mem_cons.mp hsg with rfl | hsg'
            · rw [hspk] at h2
              obtain rfl : l' = l := by simpa using h2
              rw [hemp] at h3; exact Bool.noConfusion h3
            · exact Or.inr ⟨sg, hsg', h2, h3⟩
      · have hemp' : l'.isEmpty = false := by simpa using hemp
        simp only [hspk, if_neg hemp, setAdd_mem]
        constructor
        · rintro ((h | rfl) | h)
          · exact Or.inl h
          · exact Or.inr ⟨seg, List.mem_cons_self _ _, hspk, hemp'⟩
          · exact Or.inr (by obtain ⟨sg, hsg, h2⟩ := h; exact ⟨sg, List.mem_cons_of_mem _ hsg, h2⟩)
        · rintro (h | ⟨sg, hsg, h2, h3⟩)
          · exact Or.inl (Or.inl h)
          · rcases List.mem_cons.mp hsg with rfl | hsg'
            · rw [hspk] at h2
              obtain rfl : l' = l := by simpa using h2
              exact Or.inl (Or.inr rfl)
            · exact Or.inr ⟨sg, hsg', h2, h3⟩

/-- The distinct labels collected from a transcript are exactly the
non-empty speaker labels occurring in it. -/
theorem mem_collectSpeakerLabels (t : List TranscriptSegment) (l : String) :
    l ∈ collectSpeakerLabels t ↔ ∃ seg ∈ t, seg.speaker = some l ∧ l.isEmpty = false := by
  rw [collectSpeakerLabels, mem_collect_aux]
  simp

/-- The collected label list has no duplicates. -/
theorem collectSpeakerLabels_nodup (t : List TranscriptSegment) :
    (collectSpeakerLabels t).Nodup := by
  rw [collectSpeakerLabels]
  generalize hacc : ([] : List String) = acc
  have hnd : acc.Nodup := by rw [← hacc]; exact List.nodup_nil
  clear hacc
  induction t generalizing acc with
  | nil => simpa using hnd
  | cons seg rest ih =>
    rw [List.foldl_cons]
    apply ih
    cases hspk : seg.speaker with
    | none => exact hnd
    | some l' =>
      by_cases hemp : l'.isEmpty = true
      · simpa [if_pos hemp] using hnd
      · simpa [if_neg hemp] using setAdd_nodup acc l' hnd

/-- C5: on the diarization response, the detected-speaker list is taken
from the response's `speakers` field when present; otherwise it is
derived from the transcript now in effect — exactly one entry per
distinct non-empty speaker label, each with no suggested identity, zero
confidence, and that label's first three transcript texts as excerpts. -/
theorem diarize_populates_detectedSpeakers :
    ∀ (s : AppState) (r : DiarizeResult), s.processingState = ProcessingState.diarizing →
      ((∀ sp, r.speakers = some sp → (step s (.diarizeEv (.ok r))).detectedSpeakers = sp) ∧
        (r.speakers = none →
          ((step s (.diarizeEv (.ok r))).detectedSpeakers.map (fun d => d.label)).Nodup ∧
          (∀ l, l ∈ (step s (.diarizeEv (.ok r))).detectedSpeakers.map (fun d => d.label) ↔
              ∃ seg ∈ (step s (.diarizeEv (.ok r))).transcript,
                seg.speaker = some l ∧ l.isEmpty = false) ∧
          (∀ d ∈ (step s (.diarizeEv (.ok r))).detectedSpeakers,
            d.suggestedName = none ∧ d.confidence = 0 ∧
              d.excerpts = (((step s (.diarizeEv (.ok r))).transcript.filter
                  (fun seg => seg.speaker == some d.label)).take 3).map (fun seg => seg.text)))) := by
  intro s r hg
  have hstep : step s (.diarizeEv (.ok r)) = diarizeApply r s := by
    simp [step, hg]
  rw [hstep]
  constructor
  · intro sp hsp
    simp [diarizeApply, hsp]
  · intro hnone
    have hds : (diarizeApply r s).detectedSpeakers =
        buildDetectedSpeakers (diarizeApply r s).transcript := by
      simp [diarizeApply, hnone]
    rw [hds]
    set t' := (diarizeApply r s).transcript with ht'
    have hid : ((fun d : DetectedSpeaker => d.label) ∘ fun l =>
        ({ label := l, suggestedName := none, confidence := 0,
           excerpts := ((t'.filter (fun seg => seg.speaker == some l)).take 3).map (fun seg => seg.text) } : DetectedSpeaker)) = id := by
      funext l; rfl
    refine ⟨?_, ?_, ?_⟩
    · rw [buildDetectedSpeakers, List.map_map, hid, List.map_id]
      exact collectSpeakerLabels_nodup t'
    · intro l
      rw [buildDetectedSpeakers, List.map_map, hid, List.map_id]
      exact mem_collectSpeakerLabels t' l
    · intro d hd
      rw [buildDetectedSpeakers] at hd
      obtain ⟨l, hl, rfl⟩ := List.mem_map.mp hd
      exact ⟨rfl, rfl, rfl⟩

/-- Witness for `diarize_populates_detectedSpeakers`: a diarization
response with segments but no `speakers` field at a diarizing session. -/
theorem diarize_populates_detectedSpeakers_witness :
    ((step diarizingState (.diarizeEv (.ok { segments := some gapTranscript, speakers := none }))).detectedSpeakers.map (fun d => d.label)).Nodup ∧
      (∀ l, l ∈ (step diarizingState (.diarizeEv (.ok { segments := some gapTranscript, speakers := none }))).detectedSpeakers.map (fun d => d.label) ↔
          ∃ seg ∈ (step diarizingState (.diarizeEv (.ok { segments := some gapTranscript, speakers := none }))).transcript,
            seg.speaker = some l ∧ l.isEmpty = false) ∧
      (∀ d ∈ (step diarizingState (.diarizeEv (.ok { segments := some gapTranscript, speakers := none }))).detectedSpeakers,
        d.suggestedName = none ∧ d.confidence = 0 ∧
          d.excerpts = (((step diarizingState (.diarizeEv (.ok { segments := some gapTranscript, speakers := none }))).transcript.filter
              (fun seg => seg.speaker == some d.label)).take 3).map (fun seg => seg.text)) :=
  (diarize_populates_detectedSpeakers diarizingState
    { segments := some gapTranscript, speakers := none } rfl).2 rfl

/-- Safe sequences concatenate. -/
theorem safeSeq_append {k : List (List Char)} :
    ∀ {a b : List Char}, SafeSeq k a → SafeSeq k b → SafeSeq k (a ++ b) := by
  intro a b ha hb
  induction ha with
  | nil => simpa using hb
  | chr h1 h2 h3 _ ih => exact SafeSeq.chr h1 h2 h3 ih
  | atom a rest2 hmem _ ih =>
    rw [List.append_assoc]
    exact SafeSeq.atom _ _ hmem ih

/-- Safety is monotone in the allowed atom list. -/
theorem safeSeq_mono {k k' : List (List Char)} (hsub : ∀ x ∈ k, x ∈ k') :
    ∀ {s : List Char}, SafeSeq k s → SafeSeq k' s := by
  intro s h
  induction h with
  | nil => exact SafeSeq.nil
  | chr h1 h2 h3 _ ih => exact SafeSeq.chr h1 h2 h3 ih
  | atom a rest2 hmem _ ih => exact SafeSeq.atom _ _ (hsub _ hmem) ih

/-- A single allowed atom is safe. -/
theorem safeSeq_atom_single {k : List (List Char)} {a : List Char} (h : a ∈ k) :
    SafeSeq k a := by
  have h2 : SafeSeq k ([] : List Char) := SafeSeq.nil
  have := SafeSeq.atom a [] h h2
  simpa using this

/-- Stripping a leading ordinary character (one that heads no allowed
atom) preserves safety. -/
theorem safeSeq_cons_elim {k : List (List Char)}
    (hh : ∀ a ∈ k, a.head? = some '&' ∨ a.head? = some '<') :
    ∀ {c : Char} {rest : List Char}, SafeSeq k (c :: rest) → c ≠ '&' → c ≠ '<' →
      c ≠ '>' ∧ SafeSeq k rest := by
  intro c rest h hamp hlt
  generalize hs : (c :: rest : List Char) = s at h
  cases h with
  | nil => exact absurd hs (by simp)
  | chr h1 h2 h3 htail =>
    injection hs with hc hr
    subst hc; subst hr
    exact ⟨h3, htail⟩
  | atom a rest2 hmem htail =>
    cases a with
    | nil =>
      rcases hh [] hmem with hbad | hbad <;> exact absurd hbad (by simp)
    | cons a0 a' =>
      rw [List.cons_append] at hs
      injection hs with hc hr
      rcases hh (a0 :: a') hmem with hbad | hbad
      · refine absurd ?_ hamp
        rw [hc]; simpa using hbad
      · refine absurd ?_ hlt
        rw [hc]; simpa using hbad

/-- Stripping a prefix of ordinary characters preserves safety. -/
theorem safeSeq_clean_prefix_elim {k : List (List Char)}
    (hh : ∀ a ∈ k, a.head? = some '&' ∨ a.head? = some '<') :
    ∀ (a b : List Char), SafeSeq k (a ++ b) → (∀ c ∈ a, c ≠ '&' ∧ c ≠ '<') →
      SafeSeq k b := by
  intro a
  induction a with
  | nil => intro b h _; simpa using h
  | cons c a' ih =>
    intro b h hclean
    rw [List.cons_append] at h
    have h1 := hclean c (by simp)
    obtain ⟨-, h2⟩ := safeSeq_cons_elim hh h h1.1 h1.2
    exact ih b h2 (fun x hx => hclean x (by simp [hx]))

/-- Dropping ordinary leading characters preserves safety. -/
theorem safeSeq_drop {k : List (List Char)}
    (hh : ∀ a ∈ k, a.head? = some '&' ∨ a.head? = some '<') :
    ∀ (s : List Char) (n : Nat), SafeSeq k s → (∀ c ∈ s.take n, c ≠ '&' ∧ c ≠ '<') →
      SafeSeq k (s.drop n) := by
  intro s n h hclean
  have hsplit : s = s.take n ++ s.drop n := (List.take_append_drop n s).symm
  rw [hsplit] at h
  exact safeSeq_clean_prefix_elim hh (s.take n) (s.drop n) h hclean

/-- `takeWhile` over a list with an all-satisfying prefix. -/
theorem takeWhile_append_all (p : Char → Bool) :
    ∀ (a b : List Char), (∀ c ∈ a, p c = true) →
      (a ++ b).takeWhile p = a ++ b.takeWhile p := by
  intro a
  induction a with
  | nil => intro b _; simp
  | cons c a' ih =>
    intro b hall
    rw [List.cons_append, List.takeWhile_cons, if_pos (hall c (by simp))]
    rw [ih b (fun x hx => hall x (by simp [hx]))]
    rfl

/-- `dropWhile` over a list with an all-satisfying prefix. -/
theorem dropWhile_append_all (p : Char → Bool) :
    ∀ (a b : List Char), (∀ c ∈ a, p c = true) →
      (a ++ b).dropWhile p = b.dropWhile p := by
  intro a
  induction a with
  | nil => intro b _; simp
  | cons c a' ih =>
    intro b hall
    rw [List.cons_append, List.dropWhile_cons, if_pos (hall c (by simp))]
    exact ih b (fun x hx => hall x (by simp [hx]))

/-- Splitting a safe sequence at a predicate that holds on every allowed
atom's characters keeps both halves safe. -/
theorem safeSeq_splitWhile {k : List (List Char)} (p : Char → Bool)
    (hp : ∀ a ∈ k, ∀ c ∈ a, p c = true) :
    ∀ {s : List Char}, SafeSeq k s →
      SafeSeq k (s.takeWhile p) ∧ SafeSeq k (s.dropWhile p) := by
  intro s h
  induction h with
  | nil => exact ⟨SafeSeq.nil, SafeSeq.nil⟩
  | chr h1 h2 h3 htail ih =>
    rename_i c rest
    by_cases hc : p c = true
    · rw [List.takeWhile_cons, if_pos hc, List.dropWhile_cons, if_pos hc]
      exact ⟨SafeSeq.chr h1 h2 h3 ih.1, ih.2⟩
    · rw [List.takeWhile_cons, if_neg hc, List.dropWhile_cons, if_neg hc]
      exact ⟨SafeSeq.nil, SafeSeq.chr h1 h2 h3 htail⟩
  | atom a rest2 hmem htail ih =>
    rw [takeWhile_append_all p a rest2 (hp a hmem), dropWhile_append_all p a rest2 (hp a hmem)]
    exact ⟨safeSeq_append (safeSeq_atom_single hmem) ih.1, ih.2⟩

/-- The first element surviving `dropWhile` falsifies the predicate. -/
theorem dropWhile_head_false (p : Char → Bool) :
    ∀ (l : List Char) (x : Char) (t : List Char), l.dropWhile p = x :: t → p x = false := by
  intro l
  induction l with
  | nil => intro x t h; simp at h
  | cons c rest ih =>
    intro x t h
    rw [List.dropWhile_cons] at h
    by_cases hc : p c = true
    · rw [if_pos hc] at h
      exact ih x t h
    · rw [if_neg hc] at h
      injection h with h1 _
      rw [← h1]
      simpa using hc

/-- Single-character global replacement distributes over append. -/
theorem replaceAllChar_append (t : Char) (r : List Char) :
    ∀ (a b : List Char), replaceAllChar t r (a ++ b) = replaceAllChar t r a ++ replaceAllChar t r b := by
  intro a
  induction a with
  | nil => intro b; simp [replaceAllChar]
  | cons c a' ih =>
    intro b
    rw [List.cons_append]
    simp only [replaceAllChar]
    rw [ih b, List.append_assoc]

/-- The sequential `&`, `<`, `>` replacements act character by character:
each input character contributes its own entity (or itself), and the
entities emitted by a later pass are not re-scanned by an earlier one. -/
theorem escapeHtml_cons (c : Char) (s : List Char) :
    escapeHtml (c :: s) = escapeChar c ++ escapeHtml s := by
  by_cases h1 : c = '&'
  · subst h1
    show escapeHtml ('&' :: s) = str "&amp;" ++ escapeHtml s
    unfold escapeHtml
    rw [show replaceAllChar '&' (str "&amp;") ('&' :: s) =
        str "&amp;" ++ replaceAllChar '&' (str "&amp;") s from rfl]
    rw [replaceAllChar_append, replaceAllChar_append]
    rw [show replaceAllChar '<' (str "&lt;") (str "&amp;") = str "&amp;" from rfl]
    rw [show replaceAllChar '>' (str "&gt;") (str "&amp;") = str "&amp;" from rfl]
  · by_cases h2 : c = '<'
    · subst h2
      show escapeHtml ('<' :: s) = str "&lt;" ++ escapeHtml s
      unfold escapeHtml
      rw [show replaceAllChar '&' (str "&amp;") ('<' :: s) =
          '<' :: replaceAllChar '&' (str "&amp;") s from rfl]
      rw [show replaceAllChar '<' (str "&lt;") ('<' :: replaceAllChar '&' (str "&amp;") s) =
          str "&lt;" ++ replaceAllChar '<' (str "&lt;") (replaceAllChar '&' (str "&amp;") s) from rfl]
      rw [replaceAllChar_append]
      rw [show replaceAllChar '>' (str "&gt;") (str "&lt;") = str "&lt;" from rfl]
    · by_cases h3 : c = '>'
      · subst h3
        show escapeHtml ('>' :: s) = str "&gt;" ++ escapeHtml s
        unfold escapeHtml
        rw [show replaceAllChar '&' (str "&amp;") ('>' :: s) =
            '>' :: replaceAllChar '&' (str "&amp;") s from rfl]
        rw [show replaceAllChar '<' (str "&lt;") ('>' :: replaceAllChar '&' (str "&amp;") s) =
            '>' :: replaceAllChar '<' (str "&lt;") (replaceAllChar '&' (str "&amp;") s) from rfl]
        rw [show replaceAllChar '>' (str "&gt;")
            ('>' :: replaceAllChar '<' (str "&lt;") (replaceAllChar '&' (str "&amp;") s)) =
            str "&gt;" ++ replaceAllChar '>' (str "&gt;")
              (replaceAllChar '<' (str "&lt;") (replaceAllChar '&' (str "&amp;") s)) from rfl]
      · have e1 : escapeChar c = [c] := by simp [escapeChar, h1, h2, h3]
        rw [e1]
        unfold escapeHtml
        have s1 : replaceAllChar '&' (str "&amp;") (c :: s) =
            [c] ++ replaceAllChar '&' (str "&amp;") s := by
          simp only [replaceAllChar]
          rw [if_neg h1]
        have s2 : replaceAllChar '<' (str "&lt;") [c] = [c] := by
          simp only [replaceAllChar]
          rw [if_neg h2]
          simp
        have s3 : replaceAllChar '>' (str "&gt;") [c] = [c] := by
          simp only [replaceAllChar]
          rw [if_neg h3]
          simp
        rw [s1, replaceAllChar_append, s2, replaceAllChar_append, s3]

/-- The escape stage yields an entity-safe sequence: no raw `<` or `>`
remains, and every `&` begins one of the three entities. -/
theorem escapeHtml_safe : ∀ s : List Char, SafeSeq entityAtoms (escapeHtml s) := by
  intro s
  induction s with
  | nil => exact SafeSeq.nil
  | cons c rest ih =>
    rw [escapeHtml_cons]
    by_cases h1 : c = '&'
    · subst h1
      exact SafeSeq.atom _ _ (by simp [entityAtoms, escapeChar]) ih
    · by_cases h2 : c = '<'
      · subst h2
        exact SafeSeq.atom _ _ (by simp [entityAtoms, escapeChar]) ih
      · by_cases h3 : c = '>'
        · subst h3
          exact SafeSeq.atom _ _ (by simp [entityAtoms, escapeChar]) ih
        · rw [show escapeChar c = [c] from by simp [escapeChar, h1, h2, h3]]
          exact SafeSeq.chr h1 h2 h3 ih

/-- Structure of a safe sequence starting at a character: either an
ordinary leading character followed by a safe tail, or a whole allowed
atom followed by a safe remainder. -/
theorem safeSeq_cons_cases {k : List (List Char)} (hne : ([] : List Char) ∉ k)
    {c : Char} {rest : List Char} (h : SafeSeq k (c :: rest)) :
    ((c ≠ '&' ∧ c ≠ '<' ∧ c ≠ '>') ∧ SafeSeq k rest) ∨
      (∃ a', (c :: a') ∈ k ∧ ∃ rest2, rest = a' ++ rest2 ∧ SafeSeq k rest2) := by
  generalize hs : (c :: rest : List Char) = s at h
  cases h with
  | nil => exact absurd hs (by simp)
  | chr h1 h2 h3 htail =>
    injection hs with hc hr
    subst hc; subst hr
    exact Or.inl ⟨⟨h1, h2, h3⟩, htail⟩
  | atom a rest2 hmem htail =>
    cases a with
    | nil => exact absurd hmem hne
    | cons a0 a' =>
      rw [List.cons_append] at hs
      injection hs with hc hr
      subst hc
      exact Or.inr ⟨a', hmem, rest2, hr, htail⟩

/-- Zero fuel leaves the input unchanged. -/
theorem codeReplF_zero : ∀ s : List Char, codeReplF 0 s = s := by
  intro s
  cases s with
  | nil => simp [codeReplF]
  | cons c rest => simp [codeReplF]

/-- Backtick-free characters pass through the inline-code replacement
unchanged, consuming one unit of fuel each. -/
theorem codeReplF_clean_append :
    ∀ (a : List Char) (fuel : Nat) (b : List Char), (∀ c ∈ a, ¬ c = backquote) →
      codeReplF fuel (a ++ b) = a ++ codeReplF (fuel - a.length) b := by
  intro a
  induction a with
  | nil => intro fuel b _; simp
  | cons c a' ih =>
    intro fuel b hclean
    cases fuel with
    | zero =>
      rw [codeReplF_zero]
      have h0 : 0 - (c :: a').length = 0 := by omega
      rw [h0, codeReplF_zero]
    | succ f =>
      rw [List.cons_append]
      simp only [codeReplF]
      rw [if_neg (hclean c (by simp))]
      rw [ih f b (fun x hx => hclean x (by simp [hx]))]
      simp [List.length_cons]

/-- The inline-code replacement preserves safety: the content it wraps is
a safe subsequence and the tags it inserts are allowed atoms. -/
theorem codeReplF_safe :
    ∀ (fuel : Nat) (s : List Char), SafeSeq htmlAtoms s → SafeSeq htmlAtoms (codeReplF fuel s) := by
  have hne : ([] : List Char) ∉ htmlAtoms := by decide
  have hh : ∀ a ∈ htmlAtoms, a.head? = some '&' ∨ a.head? = some '<' := by decide
  have hp : ∀ a ∈ htmlAtoms, ∀ c ∈ a, ((c != backquote) = true) := by decide
  have hnobq : ∀ a ∈ htmlAtoms, ∀ c ∈ a, ¬ c = backquote := by decide
  intro fuel
  induction fuel using Nat.strong_induction_on with
  | _ fuel ih =>
    intro s hs
    cases s with
    | nil => simpa [codeReplF] using hs
    | cons c rest =>
      cases fuel with
      | zero => simpa [codeReplF] using hs
      | succ f =>
        rcases safeSeq_cons_cases hne hs with ⟨⟨hamp, hlt, hgt⟩, htail⟩ | ⟨a', hmem, rest2, hrest, htail2⟩
        · by_cases hc : c = backquote
          · subst hc
            have hsplit := safeSeq_splitWhile (fun x => x != backquote) hp htail
            cases hdrop : rest.dropWhile (fun x => x != backquote) with
            | nil =>
              have hunf : codeReplF (f + 1) (backquote :: rest) = backquote :: codeReplF f rest := by
                simp only [codeReplF, if_true]
                rw [hdrop]
              rw [hunf]
              exact SafeSeq.chr (by decide) (by decide) (by decide) (ih f (by omega) rest htail)
            | cons x tail =>
              have hx : (x != backquote) = false := dropWhile_head_false _ rest x tail hdrop
              have hxbq : x = backquote := by simpa using hx
              have hdropSafe : SafeSeq htmlAtoms (x :: tail) := by
                have h2 := hsplit.2
                rw [hdrop] at h2
                exact h2
              have htailSafe : SafeSeq htmlAtoms tail := by
                subst hxbq
                exact (safeSeq_cons_elim hh hdropSafe (by decide) (by decide)).2
              by_cases hmid : (rest.takeWhile (fun x => x != backquote)).isEmpty
              · have hunf : codeReplF (f + 1) (backquote :: rest) = backquote :: codeReplF f rest := by
                  simp only [codeReplF, if_true]
                  rw [hdrop]
                  simp [hmid]
                rw [hunf]
                exact SafeSeq.chr (by decide) (by decide) (by decide) (ih f (by omega) rest htail)
              · have hmid' : (rest.takeWhile (fun x => x != backquote)).isEmpty = false := by
                  simpa using hmid
                have hunf : codeReplF (f + 1) (backquote :: rest) =
                    str "<code>" ++ rest.takeWhile (fun x => x != backquote) ++
                      str "</code>" ++ codeReplF f tail := by
                  simp only [codeReplF, if_true]
                  rw [hdrop]
                  simp only [hmid']
                  simp
                rw [hunf]
                refine safeSeq_append (safeSeq_append (safeSeq_append
                  (safeSeq_atom_single (by decide)) hsplit.1) (safeSeq_atom_single (by decide)))
                  (ih f (by omega) tail htailSafe)
          · have hunf : codeReplF (f + 1) (c :: rest) = c :: codeReplF f rest := by
              simp only [codeReplF]
              rw [if_neg hc]
            rw [hunf]
            exact SafeSeq.chr hamp hlt hgt (ih f (by omega) rest htail)
        · subst hrest
          rw [← List.cons_append]
          rw [codeReplF_clean_append (c :: a') (f + 1) rest2 (hnobq _ hmem)]
          refine SafeSeq.atom _ _ hmem (ih (f + 1 - (c :: a').length) ?_ rest2 htail2)
          simp only [List.length_cons]
          omega

/-- Zero fuel leaves the input unchanged. -/
theorem emReplF_zero : ∀ s : List Char, emReplF 0 s = s := by
  intro s
  cases s with
  | nil => simp [emReplF]
  | cons c rest => simp [emReplF]

/-- Star-free characters pass through the italics replacement. -/
theorem emReplF_clean_append :
    ∀ (a : List Char) (fuel : Nat) (b : List Char), (∀ c ∈ a, ¬ c = '*') →
      emReplF fuel (a ++ b) = a ++ emReplF (fuel - a.length) b := by
  intro a
  induction a with
  | nil => intro fuel b _; simp
  | cons c a' ih =>
    intro fuel b hclean
    cases fuel with
    | zero =>
      rw [emReplF_zero]
      have h0 : 0 - (c :: a').length = 0 := by omega
      rw [h0, emReplF_zero]
    | succ f =>
      rw [List.cons_append]
      simp only [emReplF]
      rw [if_neg (hclean c (by simp))]
      rw [ih f b (fun x hx => hclean x (by simp [hx]))]
      simp [List.length_cons]

/-- The italics replacement preserves safety. -/
theorem emReplF_safe :
    ∀ (fuel : Nat) (s : List Char), SafeSeq htmlAtoms s → SafeSeq htmlAtoms (emReplF fuel s) := by
  have hne : ([] : List Char) ∉ htmlAtoms := by decide
  have hh : ∀ a ∈ htmlAtoms, a.head? = some '&' ∨ a.head? = some '<' := by decide
  have hp : ∀ a ∈ htmlAtoms, ∀ c ∈ a, ((c != '*') = true) := by decide
  have hnost : ∀ a ∈ htmlAtoms, ∀ c ∈ a, ¬ c = '*' := by decide
  intro fuel
  induction fuel using Nat.strong_induction_on with
  | _ fuel ih =>
    intro s hs
    cases s with
    | nil => simpa [emReplF] using hs
    | cons c rest =>
      cases fuel with
      | zero => simpa [emReplF] using hs
      | succ f =>
        rcases safeSeq_cons_cases hne hs with ⟨⟨hamp, hlt, hgt⟩, htail⟩ | ⟨a', hmem, rest2, hrest, htail2⟩
        · by_cases hc : c = '*'
          · subst hc
            have hsplit := safeSeq_splitWhile (fun x => x != '*') hp htail
            cases hdrop : rest.dropWhile (fun x => x != '*') with
            | nil =>
              have hunf : emReplF (f + 1) ('*' :: rest) = '*' :: emReplF f rest := by
                simp only [emReplF, if_true]
                rw [hdrop]
              rw [hunf]
              exact SafeSeq.chr (by decide) (by decide) (by decide) (ih f (by omega) rest htail)
            | cons x tail =>
              have hx : (x != '*') = false := dropWhile_head_false _ rest x tail hdrop
              have hdropSafe : SafeSeq htmlAtoms (x :: tail) := by
                have h2 := hsplit.2
                rw [hdrop] at h2
                exact h2
              have htailSafe : SafeSeq htmlAtoms tail := by
                have hxs : x = '*' := by simpa using hx
                subst hxs
                exact (safeSeq_cons_elim hh hdropSafe (by decide) (by decide)).2
              by_cases hmid : (rest.takeWhile (fun x => x != '*')).isEmpty
              · have hunf : emReplF (f + 1) ('*' :: rest) = '*' :: emReplF f rest := by
                  simp only [emReplF, if_true]
                  rw [hdrop]
                  simp [hmid]
                rw [hunf]
                exact SafeSeq.chr (by decide) (by decide) (by decide) (ih f (by omega) rest htail)
              · have hmid' : (rest.takeWhile (fun x => x != '*')).isEmpty = false := by
                  simpa using hmid
                have hunf : emReplF (f + 1) ('*' :: rest) =
                    str "<em>" ++ rest.takeWhile (fun x => x != '*') ++
                      str "</em>" ++ emReplF f tail := by
                  simp only [emReplF, if_true]
                  rw [hdrop]
                  simp [hmid']
                rw [hunf]
                refine safeSeq_append (safeSeq_append (safeSeq_append
                  (safeSeq_atom_single (by decide)) hsplit.1) (safeSeq_atom_single (by decide)))
                  (ih f (by omega) tail htailSafe)
          · have hunf : emReplF (f + 1) (c :: rest) = c :: emReplF f rest := by
              simp only [emReplF]
              rw [if_neg hc]
            rw [hunf]
            exact SafeSeq.chr hamp hlt hgt (ih f (by omega) rest htail)
        · subst hrest
          rw [← List.cons_append]
          rw [emReplF_clean_append (c :: a') (f + 1) rest2 (hnost _ hmem)]
          refine SafeSeq.atom _ _ hmem (ih (f + 1 - (c :: a').length) ?_ rest2 htail2)
          simp only [List.length_cons]
          omega

/-- Zero fuel leaves the input unchanged. -/
theorem strongReplF_zero : ∀ s : List Char, strongReplF 0 s = s := by
  intro s
  cases s with
  | nil => simp [strongReplF]
  | cons c rest => simp [strongReplF]

/-- Star-free characters pass through the bold replacement. -/
theorem strongReplF_clean_append :
    ∀ (a : List Char) (fuel : Nat) (b : List Char), (∀ c ∈ a, ¬ c = '*') →
      strongReplF fuel (a ++ b) = a ++ strongReplF (fuel - a.length) b := by
  intro a
  induction a with
  | nil => intro fuel b _; simp
  | cons c a' ih =>
    intro fuel b hclean
    cases fuel with
    | zero =>
      rw [strongReplF_zero]
      have h0 : 0 - (c :: a').length = 0 := by omega
      rw [h0, strongReplF_zero]
    | succ f =>
      rw [List.cons_append]
      simp only [strongReplF]
      rw [if_neg (fun hand => (hclean c (by simp)) hand.1)]
      rw [ih f b (fun x hx => hclean x (by simp [hx]))]
      simp [List.length_cons]

/-- The bold replacement preserves safety. -/
theorem strongReplF_safe :
    ∀ (fuel : Nat) (s : List Char), SafeSeq htmlAtoms s → SafeSeq htmlAtoms (strongReplF fuel s) := by
  have hne : ([] : List Char) ∉ htmlAtoms := by decide
  have hh : ∀ a ∈ htmlAtoms, a.head? = some '&' ∨ a.head? = some '<' := by decide
  have hp : ∀ a ∈ htmlAtoms, ∀ c ∈ a, ((c != '*') = true) := by decide
  have hnost : ∀ a ∈ htmlAtoms, ∀ c ∈ a, ¬ c = '*' := by decide
  intro fuel
  induction fuel using Nat.strong_induction_on with
  | _ fuel ih =>
    intro s hs
    cases s with
    | nil => simpa [strongReplF] using hs
    | cons c rest =>
      cases fuel with
      | zero => simpa [strongReplF] using hs
      | succ f =>
        rcases safeSeq_cons_cases hne hs with ⟨⟨hamp, hlt, hgt⟩, htail⟩ | ⟨a', hmem, rest2, hrest, htail2⟩
        · by_cases hcond : c = '*' ∧ rest.head? = some '*'
          · obtain ⟨rfl, hhead⟩ := hcond
            cases rest with
            | nil => simp at hhead
            | cons r0 rest2 =>
              have hr0 : r0 = '*' := by simpa using hhead
              subst hr0
              have htail2' : SafeSeq htmlAtoms rest2 :=
                (safeSeq_cons_elim hh htail (by decide) (by decide)).2
              have hsplit := safeSeq_splitWhile (fun x => x != '*') hp htail2'
              cases hdrop : rest2.dropWhile (fun x => x != '*') with
              | nil =>
                have hunf : strongReplF (f + 1) ('*' :: '*' :: rest2) =
                    '*' :: strongReplF f ('*' :: rest2) := by
                  simp only [strongReplF, List.head?_cons, List.tail_cons, Option.some.injEq,
                    and_self, if_true]
                  rw [hdrop]
                rw [hunf]
                exact SafeSeq.chr (by decide) (by decide) (by decide) (ih f (by omega) _ htail)
              | cons z rest' =>
                have hz : (z != '*') = false := dropWhile_head_false _ rest2 z rest' hdrop
                have hzs : z = '*' := by simpa using hz
                have hdropSafe : SafeSeq htmlAtoms (z :: rest') := by
                  have h2 := hsplit.2
                  rw [hdrop] at h2
                  exact h2
                have hrestSafe : SafeSeq htmlAtoms rest' := by
                  subst hzs
                  exact (safeSeq_cons_elim hh hdropSafe (by decide) (by decide)).2
                cases rest' with
                | nil =>
                  have hunf : strongReplF (f + 1) ('*' :: '*' :: rest2) =
                      '*' :: strongReplF f ('*' :: rest2) := by
                    simp only [strongReplF, List.head?_cons, List.tail_cons, Option.some.injEq,
                      and_self, if_true]
                    rw [hdrop]
                  rw [hunf]
                  exact SafeSeq.chr (by decide) (by decide) (by decide) (ih f (by omega) _ htail)
                | cons y tail =>
                  by_cases hy : y = '*'
                  · subst hy
                    have htailSafe : SafeSeq htmlAtoms tail :=
                      (safeSeq_cons_elim hh hrestSafe (by decide) (by decide)).2
                    by_cases hmid : (rest2.takeWhile (fun x => x != '*')).isEmpty
                    · have hunf : strongReplF (f + 1) ('*' :: '*' :: rest2) =
                          '*' :: strongReplF f ('*' :: rest2) := by
                        simp only [strongReplF, List.head?_cons, List.tail_cons, Option.some.injEq,
                          and_self, if_true]
                        rw [hdrop]
                        simp [hmid]
                      rw [hunf]
                      exact SafeSeq.chr (by decide) (by decide) (by decide) (ih f (by omega) _ htail)
                    · have hmid' : (rest2.takeWhile (fun x => x != '*')).isEmpty = false := by
                        simpa using hmid
                      have hunf : strongReplF (f + 1) ('*' :: '*' :: rest2) =
                          str "<strong>" ++ rest2.takeWhile (fun x => x != '*') ++
                            str "</strong>" ++ strongReplF f tail := by
                        simp only [strongReplF, List.head?_cons, List.tail_cons, Option.some.injEq,
                          and_self, if_true]
                        rw [hdrop]
                        simp [hmid']
                      rw [hunf]
                      refine safeSeq_append (safeSeq_append (safeSeq_append
                        (safeSeq_atom_single (by decide)) hsplit.1) (safeSeq_atom_single (by decide)))
                        (ih f (by omega) tail htailSafe)
                  · have hunf : strongReplF (f + 1) ('*' :: '*' :: rest2) =
                        '*' :: strongReplF f ('*' :: rest2) := by
                      simp only [strongReplF, List.head?_cons, List.tail_cons, Option.some.injEq,
                        and_self, if_true]
                      rw [hdrop]
                      simp [hy]
                    rw [hunf]
                    exact SafeSeq.chr (by decide) (by decide) (by decide) (ih f (by omega) _ htail)
          · have hunf : strongReplF (f + 1) (c :: rest) = c :: strongReplF f rest := by
              simp only [strongReplF]
              rw [if_neg hcond]
            rw [hunf]
            exact SafeSeq.chr hamp hlt hgt (ih f (by omega) rest htail)
        · subst hrest
          rw [← List.cons_append]
          rw [strongReplF_clean_append (c :: a') (f + 1) rest2 (hnost _ hmem)]
          refine SafeSeq.atom _ _ hmem (ih (f + 1 - (c :: a').length) ?_ rest2 htail2)
          simp only [List.length_cons]
          omega

/-- `applyInlineFormatting` preserves safety. -/
theorem applyInlineFormatting_safe (text : List Char) (h : SafeSeq htmlAtoms text) :
    SafeSeq htmlAtoms (applyInlineFormatting text) := by
  unfold applyInlineFormatting emRepl strongRepl codeRepl
  exact emReplF_safe _ _ (strongReplF_safe _ _ (codeReplF_safe _ _ h))

/-- Splitting never yields an empty list of lines. -/
theorem splitOnNl_ne_nil : ∀ s : List Char, splitOnNl s ≠ [] := by
  intro s
  cases s with
  | nil => simp [splitOnNl]
  | cons c rest =>
    simp only [splitOnNl]
    by_cases hc : c = '\n'
    · rw [if_pos hc]; simp
    · rw [if_neg hc]
      cases h : splitOnNl rest <;> simp

/-- Splitting after a newline-free prefix extends the first line. -/
theorem splitOnNl_clean_append :
    ∀ (a b : List Char) (L : List Char) (ls : List (List Char)),
      splitOnNl b = L :: ls → (∀ c ∈ a, ¬ c = '\n') →
        splitOnNl (a ++ b) = (a ++ L) :: ls := by
  intro a
  induction a with
  | nil => intro b L ls h _; simpa using h
  | cons c a' ih =>
    intro b L ls h hclean
    rw [List.cons_append]
    simp only [splitOnNl]
    rw [if_neg (hclean c (by simp))]
    rw [ih b L ls h (fun x hx => hclean x (by simp [hx]))]
    rfl

/-- Every line of a safe sequence is safe, provided no allowed atom
contains a newline. -/
theorem splitOnNl_safe {k : List (List Char)} (hk : ∀ a ∈ k, ∀ c ∈ a, ¬ c = '\n') :
    ∀ {s : List Char}, SafeSeq k s → ∀ l ∈ splitOnNl s, SafeSeq k l := by
  intro s h
  induction h with
  | nil =>
    intro l hl
    simp only [splitOnNl, List.mem_singleton] at hl
    subst hl
    exact SafeSeq.nil
  | chr h1 h2 h3 htail ih =>
    rename_i c rest
    intro l hl
    by_cases hc : c = '\n'
    · rw [show splitOnNl (c :: rest) = [] :: splitOnNl rest from by
        simp [splitOnNl, hc]] at hl
      rcases List.mem_cons.mp hl with rfl | hl'
      · exact SafeSeq.nil
      · exact ih l hl'
    · cases hrest : splitOnNl rest with
      | nil => exact absurd hrest (splitOnNl_ne_nil rest)
      | cons L ls =>
        rw [show splitOnNl (c :: rest) = (c :: L) :: ls from by
          simp only [splitOnNl]; rw [if_neg hc, hrest]] at hl
        rcases List.mem_cons.mp hl with rfl | hl'
        · exact SafeSeq.chr h1 h2 h3 (ih L (by simp [hrest]))
        · exact ih l (by simp [hrest, hl'])
  | atom a rest2 hmem htail ih =>
    intro l hl
    cases hrest : splitOnNl rest2 with
    | nil => exact absurd hrest (splitOnNl_ne_nil rest2)
    | cons L ls =>
      rw [splitOnNl_clean_append a rest2 L ls hrest (hk a hmem)] at hl
      rcases List.mem_cons.mp hl with rfl | hl'
      · exact safeSeq_append (safeSeq_atom_single hmem) (ih L (by simp [hrest]))
      · exact ih l (by simp [hrest, hl'])

/-- Digits are ordinary characters. -/
theorem isDigit_not_special (c : Char) (h : c.isDigit = true) : c ≠ '&' ∧ c ≠ '<' := by
  constructor <;> rintro rfl <;> exact absurd h (by decide)

/-- Dropping a recognized ordinary prefix of a safe line keeps the rest
safe. -/
theorem safeSeq_drop_of_hasPre (pre : List Char) (hnospec : ∀ c ∈ pre, c ≠ '&' ∧ c ≠ '<')
    (line : List Char) (h : SafeSeq entityAtoms line) (hp : hasPre pre line = true) :
    SafeSeq entityAtoms (line.drop pre.length) := by
  have hhE : ∀ a ∈ entityAtoms, a.head? = some '&' ∨ a.head? = some '<' := by decide
  have htake : line.take pre.length = pre := of_decide_eq_true hp
  refine safeSeq_drop hhE line pre.length h ?_
  rw [htake]
  exact hnospec

/-- Dropping the matched ordered-list prefix (digits, dot, space) of a
safe line keeps the rest safe. -/
theorem safeSeq_drop_of_ordered (line : List Char) (h : SafeSeq entityAtoms line) (n : Nat)
    (hn : orderedMatchLen line = some n) : SafeSeq entityAtoms (line.drop n) := by
  have hhE : ∀ a ∈ entityAtoms, a.head? = some '&' ∨ a.head? = some '<' := by decide
  unfold orderedMatchLen at hn
  by_cases hd : (line.takeWhile Char.isDigit).isEmpty
  · rw [if_pos hd] at hn
    exact Option.noConfusion hn
  · rw [if_neg hd] at hn
    by_cases hdot : hasPre (str ". ") (line.drop (line.takeWhile Char.isDigit).length) = true
    · rw [if_pos hdot] at hn
      injection hn with hn'
      set d := line.takeWhile Char.isDigit with hd2
      have hpref : d <+: line := List.takeWhile_prefix _
      obtain ⟨t, ht⟩ := hpref
      have hdrop : line.drop d.length = t := by
        conv_lhs => rw [← ht]
        exact List.drop_left d t
      have hdot2 : t.take 2 = str ". " := by
        have h9 := of_decide_eq_true hdot
        rw [hdrop] at h9
        exact h9
      have htaken : line.take n = d ++ t.take 2 := by
        rw [← hn']
        conv_lhs => rw [← ht]
        exact List.take_append 2
      refine safeSeq_drop hhE line n h ?_
      intro c hc
      rw [htaken] at hc
      rcases List.mem_append.mp hc with hc1 | hc2
      · rw [hd2] at hc1
        exact isDigit_not_special c (List.mem_takeWhile_imp hc1)
      · rw [hdot2] at hc2
        constructor <;> rintro rfl <;> simp [str] at hc2
    · rw [if_neg hdot] at hn
      exact Option.noConfusion hn

/-- Joining safe lines with newlines is safe. -/
theorem joinNl_safe {k : List (List Char)} :
    ∀ ls : List (List Char), (∀ l ∈ ls, SafeSeq k l) → SafeSeq k (joinNl ls) := by
  intro ls
  induction ls with
  | nil => intro _; exact SafeSeq.nil
  | cons l rest ih =>
    intro hall
    cases rest with
    | nil => simpa [joinNl] using hall l (by simp)
    | cons l2 ls2 =>
      rw [show joinNl (l :: l2 :: ls2) = l ++ '\n' :: joinNl (l2 :: ls2) from rfl]
      exact safeSeq_append (hall l (by simp))
        (SafeSeq.chr (by decide) (by decide) (by decide)
          (ih (fun x hx => hall x (by simp [hx]))))

/-- Every line emitted for one input line is safe: closers and openers
are allowed tags, and content lines are escaped content wrapped in
allowed tags. -/
theorem renderOneLine_safe (line : List Char) (inL inO : Bool)
    (h : SafeSeq entityAtoms line) :
    ∀ out ∈ (renderOneLine line inL inO).1, SafeSeq htmlAtoms out := by
  have hsub : ∀ x ∈ entityAtoms, x ∈ htmlAtoms := by decide
  have happ : ∀ t : List Char, SafeSeq entityAtoms t → SafeSeq htmlAtoms (applyInlineFormatting t) :=
    fun t ht => applyInlineFormatting_safe t (safeSeq_mono hsub ht)
  have hoptional : ∀ (b : Bool) (tag : List Char), tag ∈ htmlAtoms →
      ∀ out ∈ (if b = true then [tag] else ([] : List (List Char))), SafeSeq htmlAtoms out := by
    intro b tag htag out hout
    by_cases hb : b = true
    · rw [if_pos hb] at hout
      rw [List.mem_singleton.mp hout]
      exact safeSeq_atom_single htag
    · rw [if_neg hb] at hout
      simp at hout
  have hoptional2 : ∀ (b : Bool) (tag : List Char), tag ∈ htmlAtoms →
      ∀ out ∈ (if b = true then ([] : List (List Char)) else [tag]), SafeSeq htmlAtoms out := by
    intro b tag htag out hout
    by_cases hb : b = true
    · rw [if_pos hb] at hout
      simp at hout
    · rw [if_neg hb] at hout
      rw [List.mem_singleton.mp hout]
      exact safeSeq_atom_single htag
  have hclosers : ∀ out ∈ ((if (inL && !(hasPre (str "- ") line)) = true then [str "</ul>"] else []) ++
      (if (inO && (orderedMatchLen line).isNone) = true then [str "</ol>"] else [])),
      SafeSeq htmlAtoms out := by
    intro out hout
    rcases List.mem_append.mp hout with h1 | h1
    · exact hoptional _ _ (by decide) out h1
    · exact hoptional _ _ (by decide) out h1
  intro out hout
  simp only [renderOneLine] at hout
  by_cases h3 : hasPre (str "### ") line = true
  · rw [if_pos h3] at hout
    rcases List.mem_append.mp hout with h1 | h1
    · exact hclosers out h1
    · rw [List.mem_singleton.mp h1]
      have hdropSafe : SafeSeq entityAtoms (line.drop 4) := by
        have h5 := safeSeq_drop_of_hasPre (str "### ") (by decide) line h h3
        simpa using h5
      exact safeSeq_append (safeSeq_append (safeSeq_atom_single (by decide)) (happ _ hdropSafe))
        (safeSeq_atom_single (by decide))
  · rw [if_neg h3] at hout
    by_cases h2 : hasPre (str "## ") line = true
    · rw [if_pos h2] at hout
      rcases List.mem_append.mp hout with h1 | h1
      · exact hclosers out h1
      · rw [List.mem_singleton.mp h1]
        have hdropSafe : SafeSeq entityAtoms (line.drop 3) := by
          have h5 := safeSeq_drop_of_hasPre (str "## ") (by decide) line h h2
          simpa using h5
        exact safeSeq_append (safeSeq_append (safeSeq_atom_single (by decide)) (happ _ hdropSafe))
          (safeSeq_atom_single (by decide))
    · rw [if_neg h2] at hout
      by_cases h1h : hasPre (str "# ") line = true
      · rw [if_pos h1h] at hout
        rcases List.mem_append.mp hout with h1 | h1
        · exact hclosers out h1
        · rw [List.mem_singleton.mp h1]
          have hdropSafe : SafeSeq entityAtoms (line.drop 2) := by
            have h5 := safeSeq_drop_of_hasPre (str "# ") (by decide) line h h1h
            simpa using h5
          exact safeSeq_append (safeSeq_append (safeSeq_atom_single (by decide)) (happ _ hdropSafe))
            (safeSeq_atom_single (by decide))
      · rw [if_neg h1h] at hout
        by_cases hul : hasPre (str "- ") line = true
        · rw [if_pos hul] at hout
          rcases List.mem_append.mp hout with h1 | h1
          · rcases List.mem_append.mp h1 with h5 | h5
            · exact hclosers out h5
            · exact hoptional2 _ _ (by decide) out h5
          · rw [List.mem_singleton.mp h1]
            have hdropSafe : SafeSeq entityAtoms (line.drop 2) := by
              have h5 := safeSeq_drop_of_hasPre (str "- ") (by decide) line h hul
              simpa using h5
            exact safeSeq_append (safeSeq_append (safeSeq_atom_single (by decide)) (happ _ hdropSafe))
              (safeSeq_atom_single (by decide))
        · rw [if_neg hul] at hout
          cases hord : orderedMatchLen line with
          | some n =>
            rw [hord] at hout
            rcases List.mem_append.mp hout with h1 | h1
            · rcases List.mem_append.mp h1 with h5 | h5
              · rcases List.mem_append.mp h5 with h6 | h6
                · exact hoptional _ _ (by decide) out h6
                · exact hoptional _ _ (by decide) out h6
              · exact hoptional2 _ _ (by decide) out h5
            · rw [List.mem_singleton.mp h1]
              have hdropSafe : SafeSeq entityAtoms (line.drop n) :=
                safeSeq_drop_of_ordered line h n hord
              exact safeSeq_append (safeSeq_append (safeSeq_atom_single (by decide)) (happ _ hdropSafe))
                (safeSeq_atom_single (by decide))
          | none =>
            rw [hord] at hout
            by_cases hbl : isBlankLine line = true
            · rw [if_pos hbl] at hout
              rcases List.mem_append.mp hout with h1 | h1
              · rcases List.mem_append.mp h1 with h6 | h6
                · exact hoptional _ _ (by decide) out h6
                · exact hoptional _ _ (by decide) out h6
              · rw [List.mem_singleton.mp h1]
                exact SafeSeq.nil
            · rw [if_neg hbl] at hout
              rcases List.mem_append.mp hout with h1 | h1
              · rcases List.mem_append.mp h1 with h6 | h6
                · exact hoptional _ _ (by decide) out h6
                · exact hoptional _ _ (by decide) out h6
              · rw [List.mem_singleton.mp h1]
                exact safeSeq_append (safeSeq_append (safeSeq_atom_single (by decide)) (happ _ h))
                  (safeSeq_atom_single (by decide))

/-- Every output line of the full line loop is safe. -/
theorem renderLines_safe :
    ∀ (ls : List (List Char)) (inL inO : Bool),
      (∀ l ∈ ls, SafeSeq entityAtoms l) →
      ∀ out ∈ renderLines ls inL inO, SafeSeq htmlAtoms out := by
  intro ls
  induction ls with
  | nil =>
    intro inL inO _ out hout
    simp only [renderLines] at hout
    rcases List.mem_append.mp hout with h1 | h1
    · by_cases hb : inL = true
      · rw [if_pos hb] at h1
        rw [List.mem_singleton.mp h1]
        exact safeSeq_atom_single (by decide)
      · rw [if_neg hb] at h1
        simp at h1
    · by_cases hb : inO = true
      · rw [if_pos hb] at h1
        rw [List.mem_singleton.mp h1]
        exact safeSeq_atom_single (by decide)
      · rw [if_neg hb] at h1
        simp at h1
  | cons line rest ih =>
    intro inL inO hall out hout
    simp only [renderLines] at hout
    rcases List.mem_append.mp hout with h1 | h1
    · exact renderOneLine_safe line inL inO (hall line (by simp)) out h1
    · exact ih _ _ (fun l hl => hall l (by simp [hl])) out h1

/-- C10: `renderMarkdown` escapes its input before applying any
formatting — after the escape stage every `&`, `<`, `>` of the input has
become one of the three entities and no raw `<`/`>` remains — and the
final HTML output is a concatenation of ordinary characters,
renderer-emitted entities (`&amp;`, `&lt;`, `&gt;`) and renderer-emitted
tags, so no `&`, `<` or `>` originating in the summary content appears
unescaped outside the tags and entities the renderer itself emits. -/
theorem renderMarkdown_escapes_html :
    (∀ s : List Char, SafeSeq entityAtoms (escapeHtml s)) ∧
    (∀ md : String, SafeSeq htmlAtoms (renderMarkdown md).toList) := by
  refine ⟨escapeHtml_safe, ?_⟩
  intro md
  have hk : ∀ a ∈ entityAtoms, ∀ c ∈ a, ¬ c = '\n' := by decide
  have hlines := splitOnNl_safe hk (escapeHtml_safe md.toList)
  have hrend := renderLines_safe (splitOnNl (escapeHtml md.toList)) false false hlines
  have hjoin := joinNl_safe _ hrend
  exact hjoin
